import Mathlib

/-!
# Verification of the Expense Splitter settlement engine

Shallow embedding of the settlement core of `ExpenseCalculator.py`
(the Streamlit "Expense Splitter" app): the per-expense share
accumulation loop, the proportional tip/tax surcharge allocation, and
the greedy debt-minimization routine `minimize_transactions`.

Python floats are modelled as exact rationals (`ℚ`); Python lists as
`List`; the insertion-ordered `balances` dict as an association list
`List (String × ℚ)` (Python dicts iterate in insertion order and have
unique keys).  Python list indexing (which accepts negative indices
and raises `IndexError` out of range) is modelled with `Int` indices
and `Option` results.
-/

namespace ExpenseSplitter

attribute [local semireducible] Rat.add Rat.sub Rat.mul Rat.inv Rat.ofScientific

/-- The settlement epsilon used throughout `minimize_transactions`
(`1e-9` in the source). -/
def eps : ℚ := 1 / 1000000000

/-- Python's `abs` on a rational-modelled float, written with an
explicit sign test (definitionally equal to Mathlib's `|·|`, see
`pyAbs_eq_abs`; the lattice-based `abs` does not evaluate well). -/
def pyAbs (q : ℚ) : ℚ := if q < 0 then -q else q

theorem pyAbs_eq_abs (q : ℚ) : pyAbs q = |q| := by
  unfold pyAbs
  rcases lt_or_le q 0 with h | h
  · rw [if_pos h, abs_of_neg h]
  · rw [if_neg (not_lt.mpr h), abs_of_nonneg h]

/-- A transfer record `(from_person, to_person, amount)` as appended by
`transfers.append((d_person, c_person, transfer_amt))`. -/
abbrev Transfer := String × String × ℚ

/-- The debtor list built by the first loop of `minimize_transactions`:
entries `(person, -bal)` for every `(person, bal)` with `¬ |bal| < 1e-9`
and `bal < 0`, in dict (insertion) order. -/
def debtorsOf (balances : List (String × ℚ)) : List (String × ℚ) :=
  balances.filterMap fun b =>
    if pyAbs b.2 < eps then none
    else if b.2 < 0 then some (b.1, -b.2) else none

/-- The creditor list built by the first loop of `minimize_transactions`:
entries `(person, bal)` for every `(person, bal)` with `¬ |bal| < 1e-9`
and `¬ bal < 0`, in dict (insertion) order. -/
def creditorsOf (balances : List (String × ℚ)) : List (String × ℚ) :=
  balances.filterMap fun b =>
    if pyAbs b.2 < eps then none
    else if b.2 < 0 then none else some (b.1, b.2)

/-- `debtors.sort(key=lambda x: x[1])`: stable ascending sort by amount
(Python's sort is stable; Mathlib's insertion sort with `·.2 ≤ ·.2`
keeps earlier elements first on ties, matching it). -/
def sortDebtors (l : List (String × ℚ)) : List (String × ℚ) :=
  l.insertionSort fun a b => a.2 ≤ b.2

/-- `creditors.sort(key=lambda x: x[1], reverse=True)`: stable
descending sort by amount. -/
def sortCreditors (l : List (String × ℚ)) : List (String × ℚ) :=
  l.insertionSort fun a b => b.2 ≤ a.2

/-- The two-pointer greedy loop of `minimize_transactions`.

One iteration with current debtor `(dp, da)` and creditor `(cp, ca)`
emits `(dp, cp, min da ca)`, subtracts the transfer from both sides,
advances the debtor pointer iff its remainder is `≤ 1e-9` and the
creditor pointer iff its remainder is `≤ 1e-9`.  When `da ≤ ca` the
debtor remainder is `0`, so the debtor always advances; when `da > ca`
the creditor remainder is `0`, so the creditor always advances — the
four advance cases below are exactly the reachable ones.  The loop ends
when either list is exhausted.  `fuel` bounds the iteration count; each
iteration drops at least one list element, so
`debtors.length + creditors.length` iterations always suffice (see
`greedyF_length`), and `minimize_transactions` supplies exactly that. -/
def greedyF : Nat → List (String × ℚ) → List (String × ℚ) → List Transfer
  | 0, _, _ => []
  | _ + 1, [], _ => []
  | _ + 1, _ :: _, [] => []
  | fuel + 1, (dp, da) :: ds, (cp, ca) :: cs =>
    if da ≤ ca then
      -- transfer_amt = da; debtor remainder 0 ≤ eps, creditor remainder ca - da
      (dp, cp, da) ::
        (if ca - da ≤ eps then greedyF fuel ds cs
         else greedyF fuel ds ((cp, ca - da) :: cs))
    else
      -- transfer_amt = ca; creditor remainder 0 ≤ eps, debtor remainder da - ca
      (dp, cp, ca) ::
        (if da - ca ≤ eps then greedyF fuel ds cs
         else greedyF fuel ((dp, da - ca) :: ds) cs)

/-- `minimize_transactions(balances)`: partition into debtors/creditors
(skipping `|bal| < 1e-9`), stable-sort debtors ascending and creditors
descending by amount, then run the greedy two-pointer loop. -/
def minimize_transactions (balances : List (String × ℚ)) : List Transfer :=
  let debtors := sortDebtors (debtorsOf balances)
  let creditors := sortCreditors (creditorsOf balances)
  greedyF (debtors.length + creditors.length) debtors creditors

/-- Total amount person `p` pays out across a transfer list (sum of
amounts of transfers whose `from` is `p`). -/
def paidBy (ts : List Transfer) (p : String) : ℚ :=
  (ts.map fun t => if t.1 = p then t.2.2 else 0).sum

/-- Total amount person `p` receives across a transfer list (sum of
amounts of transfers whose `to` is `p`). -/
def recvBy (ts : List Transfer) (p : String) : ℚ :=
  (ts.map fun t => if t.2.1 = p then t.2.2 else 0).sum

/-- Net effect of applying a transfer list to person `p`'s balance:
each transfer debits `from` (its balance rises toward zero by the
amount) and credits `to` (its balance falls by the amount). -/
def netAdjust (ts : List Transfer) (p : String) : ℚ :=
  paidBy ts p - recvBy ts p

/-- Applying every transfer in order to a balance mapping. -/
def applyTransfers (balances : List (String × ℚ)) (ts : List Transfer) :
    List (String × ℚ) :=
  balances.map fun b => (b.1, b.2 + netAdjust ts b.1)

example : minimize_transactions [("A", 200), ("B", -100), ("C", -100)] =
    [("B", "A", 100), ("C", "A", 100)] := by decide

example :
    applyTransfers [("A", 200), ("B", -100), ("C", -100)]
      (minimize_transactions [("A", 200), ("B", -100), ("C", -100)]) =
    [("A", 0), ("B", 0), ("C", 0)] := by decide

theorem eps_pos : 0 < eps := by norm_num [eps]

theorem paidBy_nil (p : String) : paidBy [] p = 0 := rfl

theorem paidBy_cons (t : Transfer) (ts : List Transfer) (p : String) :
    paidBy (t :: ts) p = (if t.1 = p then t.2.2 else 0) + paidBy ts p := by
  simp [paidBy]

theorem recvBy_nil (p : String) : recvBy [] p = 0 := rfl

theorem recvBy_cons (t : Transfer) (ts : List Transfer) (p : String) :
    recvBy (t :: ts) p = (if t.2.1 = p then t.2.2 else 0) + recvBy ts p := by
  simp [recvBy]

/-- A person named in no transfer as `from` pays nothing. -/
theorem paidBy_eq_zero {ts : List Transfer} {p : String}
    (h : ∀ t ∈ ts, t.1 ≠ p) : paidBy ts p = 0 := by
  induction ts with
  | nil => rfl
  | cons t ts ih =>
    rw [paidBy_cons, if_neg (h t (List.mem_cons_self t ts)),
      ih fun u hu => h u (List.mem_cons_of_mem t hu), add_zero]

/-- A person named in no transfer as `to` receives nothing. -/
theorem recvBy_eq_zero {ts : List Transfer} {p : String}
    (h : ∀ t ∈ ts, t.2.1 ≠ p) : recvBy ts p = 0 := by
  induction ts with
  | nil => rfl
  | cons t ts ih =>
    rw [recvBy_cons, if_neg (h t (List.mem_cons_self t ts)),
      ih fun u hu => h u (List.mem_cons_of_mem t hu), add_zero]

/-- Every transfer the greedy loop emits names a debtor-list person as
`from`. -/
theorem greedyF_from_mem :
    ∀ (fuel : Nat) (D C : List (String × ℚ)), ∀ t ∈ greedyF fuel D C,
      t.1 ∈ D.map Prod.fst := by
  intro fuel
  induction fuel with
  | zero => intro D C t ht; simp [greedyF] at ht
  | succ n ih =>
    intro D C t ht
    rcases D with _ | ⟨⟨dp, da⟩, ds⟩
    · simp [greedyF] at ht
    rcases C with _ | ⟨⟨cp, ca⟩, cs⟩
    · simp [greedyF] at ht
    rw [greedyF] at ht
    by_cases h1 : da ≤ ca
    · rw [if_pos h1] at ht
      rcases List.mem_cons.mp ht with h | h
      · rw [h]; exact List.mem_cons_self _ _
      by_cases h2 : ca - da ≤ eps
      · rw [if_pos h2] at h
        exact List.mem_cons_of_mem _ (ih ds cs t h)
      · rw [if_neg h2] at h
        exact List.mem_cons_of_mem _ (ih ds ((cp, ca - da) :: cs) t h)
    · rw [if_neg h1] at ht
      rcases List.mem_cons.mp ht with h | h
      · rw [h]; exact List.mem_cons_self _ _
      by_cases h2 : da - ca ≤ eps
      · rw [if_pos h2] at h
        exact List.mem_cons_of_mem _ (ih ds cs t h)
      · rw [if_neg h2] at h
        have h3 := ih ((dp, da - ca) :: ds) cs t h
        simpa using h3

/-- Every transfer the greedy loop emits names a creditor-list person
as `to`. -/
theorem greedyF_to_mem :
    ∀ (fuel : Nat) (D C : List (String × ℚ)), ∀ t ∈ greedyF fuel D C,
      t.2.1 ∈ C.map Prod.fst := by
  intro fuel
  induction fuel with
  | zero => intro D C t ht; simp [greedyF] at ht
  | succ n ih =>
    intro D C t ht
    rcases D with _ | ⟨⟨dp, da⟩, ds⟩
    · simp [greedyF] at ht
    rcases C with _ | ⟨⟨cp, ca⟩, cs⟩
    · simp [greedyF] at ht
    rw [greedyF] at ht
    by_cases h1 : da ≤ ca
    · rw [if_pos h1] at ht
      rcases List.mem_cons.mp ht with h | h
      · rw [h]; exact List.mem_cons_self _ _
      by_cases h2 : ca - da ≤ eps
      · rw [if_pos h2] at h
        exact List.mem_cons_of_mem _ (ih ds cs t h)
      · rw [if_neg h2] at h
        have h3 := ih ds ((cp, ca - da) :: cs) t h
        simpa using h3
    · rw [if_neg h1] at ht
      rcases List.mem_cons.mp ht with h | h
      · rw [h]; exact List.mem_cons_self _ _
      by_cases h2 : da - ca ≤ eps
      · rw [if_pos h2] at h
        exact List.mem_cons_of_mem _ (ih ds cs t h)
      · rw [if_neg h2] at h
        exact List.mem_cons_of_mem _ (ih ((dp, da - ca) :: ds) cs t h)

/-- Every transfer the greedy loop emits has a strictly positive
amount, provided all working amounts are positive (which the partition
guarantees: skipped entries are exactly those below `eps`). -/
theorem greedyF_amt_pos :
    ∀ (fuel : Nat) (D C : List (String × ℚ)),
      (∀ x ∈ D, 0 < x.2) → (∀ x ∈ C, 0 < x.2) →
      ∀ t ∈ greedyF fuel D C, 0 < t.2.2 := by
  intro fuel
  induction fuel with
  | zero => intro D C _ _ t ht; simp [greedyF] at ht
  | succ n ih =>
    intro D C hD hC t ht
    rcases D with _ | ⟨⟨dp, da⟩, ds⟩
    · simp [greedyF] at ht
    rcases C with _ | ⟨⟨cp, ca⟩, cs⟩
    · simp [greedyF] at ht
    have hda : 0 < da := hD (dp, da) (List.mem_cons_self _ _)
    have hca : 0 < ca := hC (cp, ca) (List.mem_cons_self _ _)
    have hD' : ∀ x ∈ ds, 0 < x.2 := fun x hx => hD x (List.mem_cons_of_mem _ hx)
    have hC' : ∀ x ∈ cs, 0 < x.2 := fun x hx => hC x (List.mem_cons_of_mem _ hx)
    rw [greedyF] at ht
    by_cases h1 : da ≤ ca
    · rw [if_pos h1] at ht
      rcases List.mem_cons.mp ht with h | h
      · rw [h]; exact hda
      by_cases h2 : ca - da ≤ eps
      · rw [if_pos h2] at h
        exact ih ds cs hD' hC' t h
      · rw [if_neg h2] at h
        refine ih ds ((cp, ca - da) :: cs) hD' ?_ t h
        intro x hx
        rcases List.mem_cons.mp hx with hx | hx
        · rw [hx]; exact lt_trans eps_pos (lt_of_not_le h2)
        · exact hC' x hx
    · rw [if_neg h1] at ht
      rcases List.mem_cons.mp ht with h | h
      · rw [h]; exact hca
      by_cases h2 : da - ca ≤ eps
      · rw [if_pos h2] at h
        exact ih ds cs hD' hC' t h
      · rw [if_neg h2] at h
        refine ih ((dp, da - ca) :: ds) cs ?_ hC' t h
        intro x hx
        rcases List.mem_cons.mp hx with hx | hx
        · rw [hx]; exact lt_trans eps_pos (lt_of_not_le h2)
        · exact hD' x hx

/-- The greedy loop emits at most `|debtors| + |creditors| - 1`
transfers (ℕ subtraction): each iteration retires at least one list
entry, and the loop stops once either list is exhausted. -/
theorem greedyF_length :
    ∀ (fuel : Nat) (D C : List (String × ℚ)),
      (greedyF fuel D C).length ≤ D.length + C.length - 1 := by
  intro fuel
  induction fuel with
  | zero => intro D C; simp [greedyF]
  | succ n ih =>
    intro D C
    rcases D with _ | ⟨⟨dp, da⟩, ds⟩
    · simp [greedyF]
    rcases C with _ | ⟨⟨cp, ca⟩, cs⟩
    · simp [greedyF]
    rw [greedyF]
    by_cases h1 : da ≤ ca
    · rw [if_pos h1]
      by_cases h2 : ca - da ≤ eps
      · rw [if_pos h2]
        have := ih ds cs
        simp only [List.length_cons]
        omega
      · rw [if_neg h2]
        have := ih ds ((cp, ca - da) :: cs)
        simp only [List.length_cons] at this ⊢
        omega
    · rw [if_neg h1]
      by_cases h2 : da - ca ≤ eps
      · rw [if_pos h2]
        have := ih ds cs
        simp only [List.length_cons]
        omega
      · rw [if_neg h2]
        have := ih ((dp, da - ca) :: ds) cs
        simp only [List.length_cons] at this ⊢
        omega

theorem paidBy_cons3 (f r : String) (a : ℚ) (ts : List Transfer) (p : String) :
    paidBy ((f, r, a) :: ts) p = (if f = p then a else 0) + paidBy ts p := by
  simp [paidBy]

theorem recvBy_cons3 (f r : String) (a : ℚ) (ts : List Transfer) (p : String) :
    recvBy ((f, r, a) :: ts) p = (if r = p then a else 0) + recvBy ts p := by
  simp [recvBy]

/-- No debtor pays out more than the amount it owes: the loop only
ever transfers `min` of the two current remainders. -/
theorem greedyF_paidBy_le :
    ∀ (fuel : Nat) (D C : List (String × ℚ)),
      (∀ x ∈ D, 0 < x.2) → (D.map Prod.fst).Nodup →
      ∀ pa ∈ D, paidBy (greedyF fuel D C) pa.1 ≤ pa.2 := by
  intro fuel
  induction fuel with
  | zero =>
    intro D C hD _ pa hpa
    simpa [greedyF, paidBy] using le_of_lt (hD pa hpa)
  | succ n ih =>
    intro D C hD hnd pa hpa
    obtain ⟨q, b⟩ := pa
    show paidBy _ q ≤ b
    rcases D with _ | ⟨⟨dp, da⟩, ds⟩
    · simp at hpa
    rcases C with _ | ⟨⟨cp, ca⟩, cs⟩
    · simpa [greedyF, paidBy] using le_of_lt (hD (q, b) hpa)
    have hD' : ∀ x ∈ ds, 0 < x.2 := fun x hx => hD x (List.mem_cons_of_mem _ hx)
    have hnd0 : (dp :: ds.map Prod.fst).Nodup := hnd
    obtain ⟨hdp, hnd'⟩ := List.nodup_cons.mp hnd0
    have hzero : ∀ (C₂ : List (String × ℚ)),
        paidBy (greedyF n ds C₂) dp = 0 := by
      intro C₂
      refine paidBy_eq_zero fun t ht => ?_
      intro hcontra
      exact hdp (hcontra ▸ greedyF_from_mem n ds C₂ t ht)
    have hqds : (q, b) ∈ ds → dp ≠ q := by
      intro hq hcontra
      refine hdp ?_
      rw [hcontra]
      exact List.mem_map_of_mem Prod.fst hq
    rw [greedyF]
    by_cases h1 : da ≤ ca
    · rw [if_pos h1]
      by_cases h2 : ca - da ≤ eps
      · rw [if_pos h2]
        rcases List.mem_cons.mp hpa with h | h
        · rw [Prod.mk.injEq] at h
          obtain ⟨rfl, rfl⟩ := h
          rw [paidBy_cons3, if_pos rfl, hzero cs, add_zero]
        · rw [paidBy_cons3, if_neg (hqds h), zero_add]
          exact ih ds cs hD' hnd' (q, b) h
      · rw [if_neg h2]
        rcases List.mem_cons.mp hpa with h | h
        · rw [Prod.mk.injEq] at h
          obtain ⟨rfl, rfl⟩ := h
          rw [paidBy_cons3, if_pos rfl, hzero ((cp, ca - b) :: cs), add_zero]
        · rw [paidBy_cons3, if_neg (hqds h), zero_add]
          exact ih ds ((cp, ca - da) :: cs) hD' hnd' (q, b) h
    · rw [if_neg h1]
      by_cases h2 : da - ca ≤ eps
      · rw [if_pos h2]
        rcases List.mem_cons.mp hpa with h | h
        · rw [Prod.mk.injEq] at h
          obtain ⟨rfl, rfl⟩ := h
          rw [paidBy_cons3, if_pos rfl, hzero cs, add_zero]
          exact le_of_lt (lt_of_not_le h1)
        · rw [paidBy_cons3, if_neg (hqds h), zero_add]
          exact ih ds cs hD' hnd' (q, b) h
      · rw [if_neg h2]
        have hD₂ : ∀ x ∈ (dp, da - ca) :: ds, 0 < x.2 := by
          intro x hx
          rcases List.mem_cons.mp hx with hx | hx
          · rw [hx]; exact lt_trans eps_pos (lt_of_not_le h2)
          · exact hD' x hx
        have hnd₂ : (((dp, da - ca) :: ds).map Prod.fst).Nodup :=
          List.nodup_cons.mpr ⟨hdp, hnd'⟩
        rcases List.mem_cons.mp hpa with h | h
        · rw [Prod.mk.injEq] at h
          obtain ⟨rfl, rfl⟩ := h
          rw [paidBy_cons3, if_pos rfl]
          have hh : paidBy (greedyF n ((q, b - ca) :: ds) cs) q ≤ b - ca := by
            have := ih ((q, b - ca) :: ds) cs hD₂ hnd₂ (q, b - ca)
              (List.mem_cons_self _ _)
            exact this
          linarith
        · rw [paidBy_cons3, if_neg (hqds h), zero_add]
          have hh : paidBy (greedyF n ((dp, da - ca) :: ds) cs) q ≤ b := by
            have := ih ((dp, da - ca) :: ds) cs hD₂ hnd₂ (q, b)
              (List.mem_cons_of_mem _ h)
            exact this
          exact hh

/-- No creditor receives more than the amount it is owed. -/
theorem greedyF_recvBy_le :
    ∀ (fuel : Nat) (D C : List (String × ℚ)),
      (∀ x ∈ C, 0 < x.2) → (C.map Prod.fst).Nodup →
      ∀ pa ∈ C, recvBy (greedyF fuel D C) pa.1 ≤ pa.2 := by
  intro fuel
  induction fuel with
  | zero =>
    intro D C hC _ pa hpa
    simpa [greedyF, recvBy] using le_of_lt (hC pa hpa)
  | succ n ih =>
    intro D C hC hnd pa hpa
    obtain ⟨q, b⟩ := pa
    show recvBy _ q ≤ b
    rcases D with _ | ⟨⟨dp, da⟩, ds⟩
    · simpa [greedyF, recvBy] using le_of_lt (hC (q, b) hpa)
    rcases C with _ | ⟨⟨cp, ca⟩, cs⟩
    · simp at hpa
    have hC' : ∀ x ∈ cs, 0 < x.2 := fun x hx => hC x (List.mem_cons_of_mem _ hx)
    have hnd0 : (cp :: cs.map Prod.fst).Nodup := hnd
    obtain ⟨hcp, hnd'⟩ := List.nodup_cons.mp hnd0
    have hzero : ∀ (D₂ : List (String × ℚ)),
        recvBy (greedyF n D₂ cs) cp = 0 := by
      intro D₂
      refine recvBy_eq_zero fun t ht => ?_
      intro hcontra
      exact hcp (hcontra ▸ greedyF_to_mem n D₂ cs t ht)
    have hqcs : (q, b) ∈ cs → cp ≠ q := by
      intro hq hcontra
      refine hcp ?_
      rw [hcontra]
      exact List.mem_map_of_mem Prod.fst hq
    rw [greedyF]
    by_cases h1 : da ≤ ca
    · rw [if_pos h1]
      by_cases h2 : ca - da ≤ eps
      · rw [if_pos h2]
        rcases List.mem_cons.mp hpa with h | h
        · rw [Prod.mk.injEq] at h
          obtain ⟨rfl, rfl⟩ := h
          rw [recvBy_cons3, if_pos rfl, hzero ds, add_zero]
          exact h1
        · rw [recvBy_cons3, if_neg (hqcs h), zero_add]
          exact ih ds cs hC' hnd' (q, b) h
      · rw [if_neg h2]
        have hC₂ : ∀ x ∈ (cp, ca - da) :: cs, 0 < x.2 := by
          intro x hx
          rcases List.mem_cons.mp hx with hx | hx
          · rw [hx]; exact lt_trans eps_pos (lt_of_not_le h2)
          · exact hC' x hx
        have hnd₂ : (((cp, ca - da) :: cs).map Prod.fst).Nodup :=
          List.nodup_cons.mpr ⟨hcp, hnd'⟩
        rcases List.mem_cons.mp hpa with h | h
        · rw [Prod.mk.injEq] at h
          obtain ⟨rfl, rfl⟩ := h
          rw [recvBy_cons3, if_pos rfl]
          have hh : recvBy (greedyF n ds ((q, b - da) :: cs)) q ≤ b - da := by
            have := ih ds ((q, b - da) :: cs) hC₂ hnd₂ (q, b - da)
              (List.mem_cons_self _ _)
            exact this
          linarith
        · rw [recvBy_cons3, if_neg (hqcs h), zero_add]
          have hh : recvBy (greedyF n ds ((cp, ca - da) :: cs)) q ≤ b := by
            have := ih ds ((cp, ca - da) :: cs) hC₂ hnd₂ (q, b)
              (List.mem_cons_of_mem _ h)
            exact this
          exact hh
    · rw [if_neg h1]
      by_cases h2 : da - ca ≤ eps
      · rw [if_pos h2]
        rcases List.mem_cons.mp hpa with h | h
        · rw [Prod.mk.injEq] at h
          obtain ⟨rfl, rfl⟩ := h
          rw [recvBy_cons3, if_pos rfl, hzero ds, add_zero]
        · rw [recvBy_cons3, if_neg (hqcs h), zero_add]
          exact ih ds cs hC' hnd' (q, b) h
      · rw [if_neg h2]
        rcases List.mem_cons.mp hpa with h | h
        · rw [Prod.mk.injEq] at h
          obtain ⟨rfl, rfl⟩ := h
          rw [recvBy_cons3, if_pos rfl, hzero ((dp, da - b) :: ds), add_zero]
        · rw [recvBy_cons3, if_neg (hqcs h), zero_add]
          exact ih ((dp, da - ca) :: ds) cs hC' hnd' (q, b) h

/-- The settledness dichotomy: when the fuel covers the total list
length (as it does in `minimize_transactions`), the loop ends only
once one side is fully settled — every debtor is within `eps` of
having paid its full amount, or every creditor is within `eps` of
having received its full amount. -/
theorem greedyF_settled :
    ∀ (fuel : Nat) (D C : List (String × ℚ)),
      D.length + C.length ≤ fuel →
      (D.map Prod.fst).Nodup → (C.map Prod.fst).Nodup →
      (∀ pa ∈ D, pa.2 - paidBy (greedyF fuel D C) pa.1 ≤ eps) ∨
      (∀ pa ∈ C, pa.2 - recvBy (greedyF fuel D C) pa.1 ≤ eps) := by
  intro fuel
  induction fuel with
  | zero =>
    intro D C hfuel _ _
    left
    intro pa hpa
    rcases D with _ | ⟨d, ds⟩
    · simp at hpa
    · simp at hfuel
  | succ n ih =>
    intro D C hfuel hndD hndC
    rcases D with _ | ⟨⟨dp, da⟩, ds⟩
    · left; intro pa hpa; simp at hpa
    rcases C with _ | ⟨⟨cp, ca⟩, cs⟩
    · right; intro pa hpa; simp at hpa
    have hndD0 : (dp :: ds.map Prod.fst).Nodup := hndD
    obtain ⟨hdp, hndD'⟩ := List.nodup_cons.mp hndD0
    have hndC0 : (cp :: cs.map Prod.fst).Nodup := hndC
    obtain ⟨hcp, hndC'⟩ := List.nodup_cons.mp hndC0
    have hlen : ds.length + cs.length + 2 ≤ n + 1 := by
      simp only [List.length_cons] at hfuel
      omega
    have hpzero : ∀ (C₂ : List (String × ℚ)),
        paidBy (greedyF n ds C₂) dp = 0 := by
      intro C₂
      refine paidBy_eq_zero fun t ht => ?_
      intro hcontra
      exact hdp (hcontra ▸ greedyF_from_mem n ds C₂ t ht)
    have hrzero : ∀ (D₂ : List (String × ℚ)),
        recvBy (greedyF n D₂ cs) cp = 0 := by
      intro D₂
      refine recvBy_eq_zero fun t ht => ?_
      intro hcontra
      exact hcp (hcontra ▸ greedyF_to_mem n D₂ cs t ht)
    have hqds : ∀ q (b : ℚ), (q, b) ∈ ds → dp ≠ q := by
      intro q b hq hcontra
      refine hdp ?_
      rw [hcontra]
      exact List.mem_map_of_mem Prod.fst hq
    have hqcs : ∀ q (b : ℚ), (q, b) ∈ cs → cp ≠ q := by
      intro q b hq hcontra
      refine hcp ?_
      rw [hcontra]
      exact List.mem_map_of_mem Prod.fst hq
    rw [greedyF]
    by_cases h1 : da ≤ ca
    · rw [if_pos h1]
      by_cases h2 : ca - da ≤ eps
      · rw [if_pos h2]
        rcases ih ds cs (by omega) hndD' hndC' with hL | hR
        · left
          intro pa hpa
          obtain ⟨q, b⟩ := pa
          show b - paidBy _ q ≤ eps
          rcases List.mem_cons.mp hpa with h | h
          · rw [Prod.mk.injEq] at h
            obtain ⟨rfl, rfl⟩ := h
            rw [paidBy_cons3, if_pos rfl, hpzero cs]
            simp
            exact le_of_lt eps_pos
          · rw [paidBy_cons3, if_neg (hqds q b h), zero_add]
            exact hL (q, b) h
        · right
          intro pa hpa
          obtain ⟨q, b⟩ := pa
          show b - recvBy _ q ≤ eps
          rcases List.mem_cons.mp hpa with h | h
          · rw [Prod.mk.injEq] at h
            obtain ⟨rfl, rfl⟩ := h
            rw [recvBy_cons3, if_pos rfl, hrzero ds]
            linarith
          · rw [recvBy_cons3, if_neg (hqcs q b h), zero_add]
            exact hR (q, b) h
      · rw [if_neg h2]
        have hndC₂ : (((cp, ca - da) :: cs).map Prod.fst).Nodup :=
          List.nodup_cons.mpr ⟨hcp, hndC'⟩
        rcases ih ds ((cp, ca - da) :: cs) (by simp; omega) hndD' hndC₂
          with hL | hR
        · left
          intro pa hpa
          obtain ⟨q, b⟩ := pa
          show b - paidBy _ q ≤ eps
          rcases List.mem_cons.mp hpa with h | h
          · rw [Prod.mk.injEq] at h
            obtain ⟨rfl, rfl⟩ := h
            rw [paidBy_cons3, if_pos rfl, hpzero ((cp, ca - b) :: cs)]
            simp
            exact le_of_lt eps_pos
          · rw [paidBy_cons3, if_neg (hqds q b h), zero_add]
            exact hL (q, b) h
        · right
          intro pa hpa
          obtain ⟨q, b⟩ := pa
          show b - recvBy _ q ≤ eps
          rcases List.mem_cons.mp hpa with h | h
          · rw [Prod.mk.injEq] at h
            obtain ⟨rfl, rfl⟩ := h
            rw [recvBy_cons3, if_pos rfl]
            have hh := hR (q, b - da) (List.mem_cons_self _ _)
            simp only at hh
            linarith
          · rw [recvBy_cons3, if_neg (hqcs q b h), zero_add]
            exact hR (q, b) (List.mem_cons_of_mem _ h)
    · rw [if_neg h1]
      by_cases h2 : da - ca ≤ eps
      · rw [if_pos h2]
        rcases ih ds cs (by omega) hndD' hndC' with hL | hR
        · left
          intro pa hpa
          obtain ⟨q, b⟩ := pa
          show b - paidBy _ q ≤ eps
          rcases List.mem_cons.mp hpa with h | h
          · rw [Prod.mk.injEq] at h
            obtain ⟨rfl, rfl⟩ := h
            rw [paidBy_cons3, if_pos rfl, hpzero cs]
            linarith
          · rw [paidBy_cons3, if_neg (hqds q b h), zero_add]
            exact hL (q, b) h
        · right
          intro pa hpa
          obtain ⟨q, b⟩ := pa
          show b - recvBy _ q ≤ eps
          rcases List.mem_cons.mp hpa with h | h
          · rw [Prod.mk.injEq] at h
            obtain ⟨rfl, rfl⟩ := h
            rw [recvBy_cons3, if_pos rfl, hrzero ds]
            simp
            exact le_of_lt eps_pos
          · rw [recvBy_cons3, if_neg (hqcs q b h), zero_add]
            exact hR (q, b) h
      · rw [if_neg h2]
        have hndD₂ : (((dp, da - ca) :: ds).map Prod.fst).Nodup :=
          List.nodup_cons.mpr ⟨hdp, hndD'⟩
        rcases ih ((dp, da - ca) :: ds) cs (by simp; omega) hndD₂ hndC'
          with hL | hR
        · left
          intro pa hpa
          obtain ⟨q, b⟩ := pa
          show b - paidBy _ q ≤ eps
          rcases List.mem_cons.mp hpa with h | h
          · rw [Prod.mk.injEq] at h
            obtain ⟨rfl, rfl⟩ := h
            rw [paidBy_cons3, if_pos rfl]
            have hh := hL (q, b - ca) (List.mem_cons_self _ _)
            simp only at hh
            linarith
          · rw [paidBy_cons3, if_neg (hqds q b h), zero_add]
            exact hL (q, b) (List.mem_cons_of_mem _ h)
        · right
          intro pa hpa
          obtain ⟨q, b⟩ := pa
          show b - recvBy _ q ≤ eps
          rcases List.mem_cons.mp hpa with h | h
          · rw [Prod.mk.injEq] at h
            obtain ⟨rfl, rfl⟩ := h
            rw [recvBy_cons3, if_pos rfl, hrzero ((dp, da - b) :: ds)]
            simp
            exact le_of_lt eps_pos
          · rw [recvBy_cons3, if_neg (hqcs q b h), zero_add]
            exact hR (q, b) h

theorem sum_map_addQ {α : Type} (l : List α) (f g : α → ℚ) :
    (l.map fun x => f x + g x).sum = (l.map f).sum + (l.map g).sum := by
  induction l with
  | nil => simp
  | cons x l ih => simp [ih]; ring

theorem sum_map_subQ {α : Type} (l : List α) (f g : α → ℚ) :
    (l.map fun x => f x - g x).sum = (l.map f).sum - (l.map g).sum := by
  induction l with
  | nil => simp
  | cons x l ih => simp [ih]; ring

theorem netAdjust_nil (p : String) : netAdjust [] p = 0 := by
  simp [netAdjust, paidBy, recvBy]

theorem netAdjust_cons3 (f r : String) (a : ℚ) (ts : List Transfer)
    (p : String) :
    netAdjust ((f, r, a) :: ts) p =
      ((if f = p then a else 0) - (if r = p then a else 0)) + netAdjust ts p := by
  simp only [netAdjust, paidBy_cons3, recvBy_cons3]
  ring

/-- Summing `if x = p then a else 0` over a key list that does not
contain `x` gives `0`. -/
theorem sum_if_zero (K : List String) (x : String) (a : ℚ) (hx : x ∉ K) :
    (K.map fun p => if x = p then a else 0).sum = 0 := by
  induction K with
  | nil => simp
  | cons k K ih =>
    have hxk : x ≠ k := fun h => hx (h ▸ List.mem_cons_self k K)
    simp only [List.map_cons, List.sum_cons, if_neg hxk]
    rw [ih fun h => hx (List.mem_cons_of_mem k h), add_zero]

/-- Summing `if x = p then a else 0` over a duplicate-free key list
containing `x` gives exactly `a`. -/
theorem sum_if_single (K : List String) (hnd : K.Nodup) (x : String)
    (hx : x ∈ K) (a : ℚ) :
    (K.map fun p => if x = p then a else 0).sum = a := by
  induction K with
  | nil => simp at hx
  | cons k K ih =>
    obtain ⟨hk, hnd'⟩ := List.nodup_cons.mp hnd
    rcases List.mem_cons.mp hx with h | h
    · subst h
      simp only [List.map_cons, List.sum_cons, if_true]
      rw [sum_if_zero K x a hk, add_zero]
    · have hxk : x ≠ k := fun hc => hk (hc ▸ h)
      simp only [List.map_cons, List.sum_cons, if_neg hxk]
      rw [ih hnd' h, zero_add]

/-- Each transfer whose endpoints both lie (exactly once) in the key
list moves value from one key to another, so the total net adjustment
over all keys is zero. -/
theorem netAdjust_key_sum (K : List String) (hnd : K.Nodup)
    (ts : List Transfer) (hts : ∀ t ∈ ts, t.1 ∈ K ∧ t.2.1 ∈ K) :
    (K.map (netAdjust ts)).sum = 0 := by
  induction ts with
  | nil =>
    rw [List.map_congr_left fun a _ => netAdjust_nil a]
    simp
  | cons t ts ih =>
    obtain ⟨f, r, a⟩ := t
    obtain ⟨hf, hr⟩ := hts (f, r, a) (List.mem_cons_self _ _)
    rw [List.map_congr_left fun p _ => netAdjust_cons3 f r a ts p,
      sum_map_addQ, sum_map_subQ, sum_if_single K hnd f hf a,
      sum_if_single K hnd r hr a,
      ih fun u hu => hts u (List.mem_cons_of_mem _ hu)]
    ring

/-- The sum of the balances after applying a transfer list splits into
the original sum plus the total net adjustment over the keys. -/
theorem applyTransfers_snd_sum (bs : List (String × ℚ)) (ts : List Transfer) :
    ((applyTransfers bs ts).map Prod.snd).sum =
      (bs.map Prod.snd).sum + ((bs.map Prod.fst).map (netAdjust ts)).sum := by
  unfold applyTransfers
  rw [List.map_map, List.map_map]
  exact sum_map_addQ bs Prod.snd fun b => netAdjust ts b.1

theorem sum_le_length_mul (l : List ℚ) (c : ℚ) (h : ∀ x ∈ l, x ≤ c) :
    l.sum ≤ l.length * c := by
  induction l with
  | nil => simp
  | cons x l ih =>
    have h1 : x ≤ c := h x (List.mem_cons_self x l)
    have h2 : l.sum ≤ l.length * c :=
      ih fun y hy => h y (List.mem_cons_of_mem x hy)
    simp only [List.sum_cons, List.length_cons]
    push_cast
    nlinarith

theorem length_mul_le_sum (l : List ℚ) (c : ℚ) (h : ∀ x ∈ l, c ≤ x) :
    l.length * c ≤ l.sum := by
  induction l with
  | nil => simp
  | cons x l ih =>
    have h1 : c ≤ x := h x (List.mem_cons_self x l)
    have h2 : l.length * c ≤ l.sum :=
      ih fun y hy => h y (List.mem_cons_of_mem x hy)
    simp only [List.sum_cons, List.length_cons]
    push_cast
    nlinarith

/-- The debtor keys are a subsequence of the balance keys. -/
theorem keys_debtorsOf_sublist (bs : List (String × ℚ)) :
    ((debtorsOf bs).map Prod.fst).Sublist (bs.map Prod.fst) := by
  induction bs with
  | nil => simp [debtorsOf]
  | cons b bs ih =>
    simp only [debtorsOf, List.filterMap_cons] at ih ⊢
    by_cases h1 : pyAbs b.2 < eps
    · rw [if_pos h1]
      exact List.Sublist.cons _ ih
    · rw [if_neg h1]
      by_cases h2 : b.2 < 0
      · rw [if_pos h2]
        exact List.Sublist.cons₂ _ ih
      · rw [if_neg h2]
        exact List.Sublist.cons _ ih

/-- The creditor keys are a subsequence of the balance keys. -/
theorem keys_creditorsOf_sublist (bs : List (String × ℚ)) :
    ((creditorsOf bs).map Prod.fst).Sublist (bs.map Prod.fst) := by
  induction bs with
  | nil => simp [creditorsOf]
  | cons b bs ih =>
    simp only [creditorsOf, List.filterMap_cons] at ih ⊢
    by_cases h1 : pyAbs b.2 < eps
    · rw [if_pos h1]
      exact List.Sublist.cons _ ih
    · rw [if_neg h1]
      by_cases h2 : b.2 < 0
      · rw [if_pos h2]
        exact List.Sublist.cons _ ih
      · rw [if_neg h2]
        exact List.Sublist.cons₂ _ ih

/-- Characterization of debtor-list membership. -/
theorem mem_debtorsOf {bs : List (String × ℚ)} {pa : String × ℚ} :
    pa ∈ debtorsOf bs ↔
      ∃ b ∈ bs, ¬pyAbs b.2 < eps ∧ b.2 < 0 ∧ pa = (b.1, -b.2) := by
  constructor
  · intro h
    obtain ⟨b, hb, heq⟩ := List.mem_filterMap.mp h
    by_cases h1 : pyAbs b.2 < eps
    · rw [if_pos h1] at heq; exact absurd heq (by simp)
    rw [if_neg h1] at heq
    by_cases h2 : b.2 < 0
    · rw [if_pos h2] at heq
      exact ⟨b, hb, h1, h2, (Option.some_inj.mp heq).symm⟩
    · rw [if_neg h2] at heq; exact absurd heq (by simp)
  · rintro ⟨b, hb, h1, h2, rfl⟩
    exact List.mem_filterMap.mpr ⟨b, hb, by rw [if_neg h1, if_pos h2]⟩

/-- Characterization of creditor-list membership. -/
theorem mem_creditorsOf {bs : List (String × ℚ)} {pa : String × ℚ} :
    pa ∈ creditorsOf bs ↔
      ∃ b ∈ bs, ¬pyAbs b.2 < eps ∧ ¬b.2 < 0 ∧ pa = (b.1, b.2) := by
  constructor
  · intro h
    obtain ⟨b, hb, heq⟩ := List.mem_filterMap.mp h
    by_cases h1 : pyAbs b.2 < eps
    · rw [if_pos h1] at heq; exact absurd heq (by simp)
    rw [if_neg h1] at heq
    by_cases h2 : b.2 < 0
    · rw [if_pos h2] at heq; exact absurd heq (by simp)
    · rw [if_neg h2] at heq
      exact ⟨b, hb, h1, h2, (Option.some_inj.mp heq).symm⟩
  · rintro ⟨b, hb, h1, h2, rfl⟩
    exact List.mem_filterMap.mpr ⟨b, hb, by rw [if_neg h1, if_neg h2]⟩

/-- In a mapping with duplicate-free keys, entries are determined by
their key. -/
theorem key_inj {bs : List (String × ℚ)} (hnd : (bs.map Prod.fst).Nodup)
    {b1 b2 : String × ℚ} (h1 : b1 ∈ bs) (h2 : b2 ∈ bs) (h : b1.1 = b2.1) :
    b1 = b2 :=
  List.inj_on_of_nodup_map hnd h1 h2 h

theorem minimize_transactions_def (bs : List (String × ℚ)) :
    minimize_transactions bs =
      greedyF ((sortDebtors (debtorsOf bs)).length +
          (sortCreditors (creditorsOf bs)).length)
        (sortDebtors (debtorsOf bs)) (sortCreditors (creditorsOf bs)) := rfl

theorem sortDebtors_perm (l : List (String × ℚ)) :
    (sortDebtors l).Perm l :=
  List.perm_insertionSort _ l

theorem sortCreditors_perm (l : List (String × ℚ)) :
    (sortCreditors l).Perm l :=
  List.perm_insertionSort _ l

theorem keysD_nodup (bs : List (String × ℚ))
    (hnd : (bs.map Prod.fst).Nodup) :
    ((sortDebtors (debtorsOf bs)).map Prod.fst).Nodup :=
  ((sortDebtors_perm (debtorsOf bs)).map Prod.fst).nodup_iff.mpr
    ((keys_debtorsOf_sublist bs).nodup hnd)

theorem keysC_nodup (bs : List (String × ℚ))
    (hnd : (bs.map Prod.fst).Nodup) :
    ((sortCreditors (creditorsOf bs)).map Prod.fst).Nodup :=
  ((sortCreditors_perm (creditorsOf bs)).map Prod.fst).nodup_iff.mpr
    ((keys_creditorsOf_sublist bs).nodup hnd)

theorem posD (bs : List (String × ℚ)) :
    ∀ x ∈ sortDebtors (debtorsOf bs), 0 < x.2 := by
  intro x hx
  have hx' := (sortDebtors_perm (debtorsOf bs)).mem_iff.mp hx
  obtain ⟨b, _, _, h2, rfl⟩ := mem_debtorsOf.mp hx'
  simpa using h2

theorem posC (bs : List (String × ℚ)) :
    ∀ x ∈ sortCreditors (creditorsOf bs), 0 < x.2 := by
  intro x hx
  have hx' := (sortCreditors_perm (creditorsOf bs)).mem_iff.mp hx
  obtain ⟨b, _, h1, h2, rfl⟩ := mem_creditorsOf.mp hx'
  have hnn : 0 ≤ b.2 := le_of_not_lt h2
  have : pyAbs b.2 = b.2 := if_neg h2
  have : eps ≤ b.2 := by
    rw [← this]
    exact le_of_not_lt h1
  exact lt_of_lt_of_le eps_pos this

/-- A key of the (sorted) debtor list comes from a balance entry that
was classified as a debtor. -/
theorem keysD_entry {bs : List (String × ℚ)} {p : String} :
    p ∈ (sortDebtors (debtorsOf bs)).map Prod.fst →
      ∃ v, (p, v) ∈ bs ∧ ¬pyAbs v < eps ∧ v < 0 := by
  intro h
  have h' := ((sortDebtors_perm (debtorsOf bs)).map Prod.fst).mem_iff.mp h
  obtain ⟨pa, hpa, hp⟩ := List.mem_map.mp h'
  obtain ⟨b, hb, h1, h2, rfl⟩ := mem_debtorsOf.mp hpa
  exact ⟨b.2, by simpa [← hp] using hb, h1, h2⟩

/-- A key of the (sorted) creditor list comes from a balance entry
that was classified as a creditor. -/
theorem keysC_entry {bs : List (String × ℚ)} {p : String} :
    p ∈ (sortCreditors (creditorsOf bs)).map Prod.fst →
      ∃ v, (p, v) ∈ bs ∧ ¬pyAbs v < eps ∧ ¬v < 0 := by
  intro h
  have h' := ((sortCreditors_perm (creditorsOf bs)).map Prod.fst).mem_iff.mp h
  obtain ⟨pa, hpa, hp⟩ := List.mem_map.mp h'
  obtain ⟨b, hb, h1, h2, rfl⟩ := mem_creditorsOf.mp hpa
  exact ⟨b.2, by simpa [← hp] using hb, h1, h2⟩

theorem paidBy_zero_of_not_keysD {bs : List (String × ℚ)} {p : String}
    (h : p ∉ (sortDebtors (debtorsOf bs)).map Prod.fst) :
    paidBy (minimize_transactions bs) p = 0 := by
  rw [minimize_transactions_def]
  refine paidBy_eq_zero fun t ht => ?_
  intro hcontra
  exact h (hcontra ▸ greedyF_from_mem _ _ _ t ht)

theorem recvBy_zero_of_not_keysC {bs : List (String × ℚ)} {p : String}
    (h : p ∉ (sortCreditors (creditorsOf bs)).map Prod.fst) :
    recvBy (minimize_transactions bs) p = 0 := by
  rw [minimize_transactions_def]
  refine recvBy_eq_zero fun t ht => ?_
  intro hcontra
  exact h (hcontra ▸ greedyF_to_mem _ _ _ t ht)

theorem memD_of_entry {bs : List (String × ℚ)} {p : String} {v : ℚ}
    (hb : (p, v) ∈ bs) (h1 : ¬pyAbs v < eps) (h2 : v < 0) :
    (p, -v) ∈ sortDebtors (debtorsOf bs) :=
  (sortDebtors_perm (debtorsOf bs)).mem_iff.mpr
    (mem_debtorsOf.mpr ⟨(p, v), hb, h1, h2, rfl⟩)

theorem memC_of_entry {bs : List (String × ℚ)} {p : String} {v : ℚ}
    (hb : (p, v) ∈ bs) (h1 : ¬pyAbs v < eps) (h2 : ¬v < 0) :
    (p, v) ∈ sortCreditors (creditorsOf bs) :=
  (sortCreditors_perm (creditorsOf bs)).mem_iff.mpr
    (mem_creditorsOf.mpr ⟨(p, v), hb, h1, h2, rfl⟩)

theorem le_pyAbs (q : ℚ) : q ≤ pyAbs q := by
  unfold pyAbs
  by_cases h : q < 0
  · rw [if_pos h]; linarith
  · rw [if_neg h]

theorem neg_pyAbs_le (q : ℚ) : -pyAbs q ≤ q := by
  unfold pyAbs
  by_cases h : q < 0
  · rw [if_pos h]; linarith
  · rw [if_neg h]; linarith [le_of_not_lt h]

/-- If every creditor ended up settled to within `eps`, every final
balance is at most `eps`: skipped entries are below `eps`, debtors
never overpay (so end at most `0`), creditors end within `eps`. -/
theorem entry_final_le (bs : List (String × ℚ))
    (hnd : (bs.map Prod.fst).Nodup)
    (hC : ∀ pa ∈ sortCreditors (creditorsOf bs),
      pa.2 - recvBy (minimize_transactions bs) pa.1 ≤ eps) :
    ∀ pb ∈ bs, pb.2 + netAdjust (minimize_transactions bs) pb.1 ≤ eps := by
  intro pb hb
  obtain ⟨p, v⟩ := pb
  show v + netAdjust (minimize_transactions bs) p ≤ eps
  unfold netAdjust
  by_cases h1 : pyAbs v < eps
  · have hpD : p ∉ (sortDebtors (debtorsOf bs)).map Prod.fst := by
      intro hk
      obtain ⟨w, hw, hw1, _⟩ := keysD_entry hk
      have heq := key_inj hnd hb hw rfl
      cases heq
      exact hw1 h1
    have hpC : p ∉ (sortCreditors (creditorsOf bs)).map Prod.fst := by
      intro hk
      obtain ⟨w, hw, hw1, _⟩ := keysC_entry hk
      have heq := key_inj hnd hb hw rfl
      cases heq
      exact hw1 h1
    rw [paidBy_zero_of_not_keysD hpD, recvBy_zero_of_not_keysC hpC]
    have := le_pyAbs v
    linarith
  · by_cases h2 : v < 0
    · have hpC : p ∉ (sortCreditors (creditorsOf bs)).map Prod.fst := by
        intro hk
        obtain ⟨w, hw, _, hw2⟩ := keysC_entry hk
        have heq := key_inj hnd hb hw rfl
        cases heq
        exact hw2 h2
      rw [recvBy_zero_of_not_keysC hpC]
      have hmem := memD_of_entry hb h1 h2
      have h3 : paidBy (minimize_transactions bs) p ≤ -v := by
        rw [minimize_transactions_def]
        exact greedyF_paidBy_le _ _ _ (posD bs) (keysD_nodup bs hnd)
          (p, -v) hmem
      linarith [eps_pos]
    · have hpD : p ∉ (sortDebtors (debtorsOf bs)).map Prod.fst := by
        intro hk
        obtain ⟨w, hw, _, hw2⟩ := keysD_entry hk
        have heq := key_inj hnd hb hw rfl
        cases heq
        exact h2 hw2
      rw [paidBy_zero_of_not_keysD hpD]
      have hmem := memC_of_entry hb h1 h2
      have h3 : v - recvBy (minimize_transactions bs) p ≤ eps := hC (p, v) hmem
      linarith

/-- If every debtor ended up settled to within `eps`, every final
balance is at least `-eps`. -/
theorem entry_final_ge (bs : List (String × ℚ))
    (hnd : (bs.map Prod.fst).Nodup)
    (hD : ∀ pa ∈ sortDebtors (debtorsOf bs),
      pa.2 - paidBy (minimize_transactions bs) pa.1 ≤ eps) :
    ∀ pb ∈ bs, -eps ≤ pb.2 + netAdjust (minimize_transactions bs) pb.1 := by
  intro pb hb
  obtain ⟨p, v⟩ := pb
  show -eps ≤ v + netAdjust (minimize_transactions bs) p
  unfold netAdjust
  by_cases h1 : pyAbs v < eps
  · have hpD : p ∉ (sortDebtors (debtorsOf bs)).map Prod.fst := by
      intro hk
      obtain ⟨w, hw, hw1, _⟩ := keysD_entry hk
      have heq := key_inj hnd hb hw rfl
      cases heq
      exact hw1 h1
    have hpC : p ∉ (sortCreditors (creditorsOf bs)).map Prod.fst := by
      intro hk
      obtain ⟨w, hw, hw1, _⟩ := keysC_entry hk
      have heq := key_inj hnd hb hw rfl
      cases heq
      exact hw1 h1
    rw [paidBy_zero_of_not_keysD hpD, recvBy_zero_of_not_keysC hpC]
    have := neg_pyAbs_le v
    linarith
  · by_cases h2 : v < 0
    · have hpC : p ∉ (sortCreditors (creditorsOf bs)).map Prod.fst := by
        intro hk
        obtain ⟨w, hw, _, hw2⟩ := keysC_entry hk
        have heq := key_inj hnd hb hw rfl
        cases heq
        exact hw2 h2
      rw [recvBy_zero_of_not_keysC hpC]
      have hmem := memD_of_entry hb h1 h2
      have h3 : -v - paidBy (minimize_transactions bs) p ≤ eps := hD (p, -v) hmem
      linarith
    · have hpD : p ∉ (sortDebtors (debtorsOf bs)).map Prod.fst := by
        intro hk
        obtain ⟨w, hw, _, hw2⟩ := keysD_entry hk
        have heq := key_inj hnd hb hw rfl
        cases heq
        exact h2 hw2
      rw [paidBy_zero_of_not_keysD hpD]
      have hmem := memC_of_entry hb h1 h2
      have h3 : recvBy (minimize_transactions bs) p ≤ v := by
        rw [minimize_transactions_def]
        exact greedyF_recvBy_le _ _ _ (posC bs) (keysC_nodup bs hnd)
          (p, v) hmem
      linarith [eps_pos]

theorem applyTransfers_map_snd (bs : List (String × ℚ)) (ts : List Transfer) :
    (applyTransfers bs ts).map Prod.snd =
      bs.map fun b => b.2 + netAdjust ts b.1 := by
  unfold applyTransfers
  rw [List.map_map]
  rfl

/-- Helper: the settledness dichotomy, phrased for
`minimize_transactions` itself. -/
theorem minimize_transactions_settled_dichotomy (bs : List (String × ℚ))
    (hnd : (bs.map Prod.fst).Nodup) :
    (∀ pa ∈ sortDebtors (debtorsOf bs),
      pa.2 - paidBy (minimize_transactions bs) pa.1 ≤ eps) ∨
    (∀ pa ∈ sortCreditors (creditorsOf bs),
      pa.2 - recvBy (minimize_transactions bs) pa.1 ≤ eps) := by
  rw [minimize_transactions_def]
  exact greedyF_settled _ _ _ (le_refl _) (keysD_nodup bs hnd)
    (keysC_nodup bs hnd)

/-- Helper: both endpoints of every emitted transfer are keys of the
balance mapping. -/
theorem minimize_transactions_keys (bs : List (String × ℚ)) :
    ∀ t ∈ minimize_transactions bs,
      t.1 ∈ bs.map Prod.fst ∧ t.2.1 ∈ bs.map Prod.fst := by
  intro t ht
  rw [minimize_transactions_def] at ht
  constructor
  · have h1 := greedyF_from_mem _ _ _ t ht
    have h2 := ((sortDebtors_perm (debtorsOf bs)).map Prod.fst).mem_iff.mp h1
    exact (keys_debtorsOf_sublist bs).subset h2
  · have h1 := greedyF_to_mem _ _ _ t ht
    have h2 := ((sortCreditors_perm (creditorsOf bs)).map Prod.fst).mem_iff.mp h1
    exact (keys_creditorsOf_sublist bs).subset h2

/-- C1 (amended).  For a balance mapping with duplicate-free keys
whose values sum to exactly zero, applying every transfer of
`minimize_transactions` leaves every balance within `N * eps` of zero,
where `N` is the number of participants.  (The original claim's bound
of a single `eps` fails: sub-`eps` residuals discarded when a pointer
advances can accumulate onto the last unserved participant, see
`transfers_settle_within_eps_counterexample`.) -/
theorem transfers_settle_within_n_eps (bs : List (String × ℚ))
    (hnd : (bs.map Prod.fst).Nodup)
    (hsum : (bs.map Prod.snd).sum = 0) :
    ∀ pb ∈ applyTransfers bs (minimize_transactions bs),
      |pb.2| ≤ (bs.length : ℚ) * eps := by
  intro pb hpb
  obtain ⟨b, hb, rfl⟩ := List.mem_map.mp hpb
  show |b.2 + netAdjust (minimize_transactions bs) b.1| ≤ (bs.length : ℚ) * eps
  have hn : 1 ≤ bs.length := List.length_pos.mpr (List.ne_nil_of_mem hb)
  have hnQ : (1 : ℚ) ≤ (bs.length : ℚ) := by exact_mod_cast hn
  have htotal :
      ((bs.map fun x => x.2 + netAdjust (minimize_transactions bs) x.1).sum)
        = 0 := by
    rw [← applyTransfers_map_snd, applyTransfers_snd_sum,
      netAdjust_key_sum _ hnd _ (minimize_transactions_keys bs), hsum,
      add_zero]
  obtain ⟨rest, hperm⟩ : ∃ rest, bs.Perm (b :: rest) :=
    ⟨_, List.perm_cons_erase hb⟩
  have hrest_mem : ∀ x ∈ rest, x ∈ bs := fun x hx =>
    hperm.mem_iff.mpr (List.mem_cons_of_mem b hx)
  have hrest_len : (rest.length : ℚ) = (bs.length : ℚ) - 1 := by
    have := hperm.length_eq
    simp only [List.length_cons] at this
    rw [this]
    push_cast
    ring
  have hsplit :
      (b.2 + netAdjust (minimize_transactions bs) b.1) +
        (rest.map
          fun x => x.2 + netAdjust (minimize_transactions bs) x.1).sum = 0 := by
    have h := (hperm.map
      fun x => x.2 + netAdjust (minimize_transactions bs) x.1).sum_eq
    rw [htotal] at h
    simp only [List.map_cons, List.sum_cons] at h
    linarith
  have heq1 : ((bs.length : ℚ) - 1) * eps + eps = (bs.length : ℚ) * eps := by
    ring
  have hnonneg : 0 ≤ ((bs.length : ℚ) - 1) * eps :=
    mul_nonneg (by linarith) (le_of_lt eps_pos)
  rcases minimize_transactions_settled_dichotomy bs hnd with hL | hR
  · -- all debtors settled: every final balance is at least -eps
    have hge := entry_final_ge bs hnd hL
    have h1 : -eps ≤ b.2 + netAdjust (minimize_transactions bs) b.1 :=
      hge b hb
    have h0 : ∀ x ∈ rest.map
        fun x => x.2 + netAdjust (minimize_transactions bs) x.1, -eps ≤ x := by
      intro x hx
      obtain ⟨y, hy, rfl⟩ := List.mem_map.mp hx
      exact hge y (hrest_mem y hy)
    have hrest := length_mul_le_sum _ (-eps) h0
    rw [List.length_map, hrest_len] at hrest
    have hring : ((bs.length : ℚ) - 1) * -eps =
        -(((bs.length : ℚ) - 1) * eps) := by ring
    rw [hring] at hrest
    rw [abs_le]
    constructor
    · linarith [eps_pos]
    · linarith [eps_pos]
  · -- all creditors settled: every final balance is at most eps
    have hle := entry_final_le bs hnd hR
    have h1 : b.2 + netAdjust (minimize_transactions bs) b.1 ≤ eps :=
      hle b hb
    have h0 : ∀ x ∈ rest.map
        fun x => x.2 + netAdjust (minimize_transactions bs) x.1, x ≤ eps := by
      intro x hx
      obtain ⟨y, hy, rfl⟩ := List.mem_map.mp hx
      exact hle y (hrest_mem y hy)
    have hrest := sum_le_length_mul _ eps h0
    rw [List.length_map, hrest_len] at hrest
    rw [abs_le]
    constructor
    · linarith [eps_pos]
    · linarith [eps_pos]

/-- C1 counterexample: a balance mapping with distinct keys summing to
exactly zero for which some participant is left more than `eps` away
from zero.  Debtors `A` and `B` are discarded with sub-`eps` residua
(`eps/2` and `eps`) when their remainders drop below the advance
threshold, so creditor `E` (owed `1.5 * eps`, which is above the skip
threshold) is never served: the loop ends with the debtor list
exhausted, and `E`'s balance stays at `1.5e-9 > 1e-9`. -/
theorem transfers_settle_within_eps_counterexample :
    (([("A", -(1 + eps / 2)), ("B", -(1 + eps)), ("C", 1), ("D", 1),
        ("E", 3 * eps / 2)] : List (String × ℚ)).map Prod.fst).Nodup ∧
    (([("A", -(1 + eps / 2)), ("B", -(1 + eps)), ("C", 1), ("D", 1),
        ("E", 3 * eps / 2)] : List (String × ℚ)).map Prod.snd).sum = 0 ∧
    ∃ pb ∈ applyTransfers
        [("A", -(1 + eps / 2)), ("B", -(1 + eps)), ("C", 1), ("D", 1),
          ("E", 3 * eps / 2)]
        (minimize_transactions
          [("A", -(1 + eps / 2)), ("B", -(1 + eps)), ("C", 1), ("D", 1),
            ("E", 3 * eps / 2)]),
      eps < |pb.2| := by
  refine ⟨by decide, by decide, ?_⟩
  have h : ∃ pb ∈ applyTransfers
      [("A", -(1 + eps / 2)), ("B", -(1 + eps)), ("C", 1), ("D", 1),
        ("E", 3 * eps / 2)]
      (minimize_transactions
        [("A", -(1 + eps / 2)), ("B", -(1 + eps)), ("C", 1), ("D", 1),
          ("E", 3 * eps / 2)]),
      eps < pyAbs pb.2 := by decide
  obtain ⟨pb, hmem, hlt⟩ := h
  exact ⟨pb, hmem, by rw [← pyAbs_eq_abs]; exact hlt⟩

/-- Witness for C1 (amended) at the mapping `{A: -5, B: 5}`. -/
theorem transfers_settle_within_n_eps_witness :
    (([("A", -5), ("B", 5)] : List (String × ℚ)).map Prod.fst).Nodup ∧
    (([("A", -5), ("B", 5)] : List (String × ℚ)).map Prod.snd).sum = 0 ∧
    ∀ pb ∈ applyTransfers [("A", -5), ("B", 5)]
        (minimize_transactions [("A", -5), ("B", 5)]),
      |pb.2| ≤ ((([("A", -5), ("B", 5)] : List (String × ℚ)).length : ℚ)) *
        eps :=
  ⟨by decide, by decide,
    transfers_settle_within_n_eps _ (by decide) (by decide)⟩

/-- C6: with distinct participant names (balances form a dict), every
emitted transfer has a strictly positive amount and distinct
endpoints: amounts transferred are `min` of two positive remainders,
and the `from` side comes from the debtor partition while the `to`
side comes from the disjoint creditor partition. -/
theorem minimize_transactions_pos_no_self (bs : List (String × ℚ))
    (hnd : (bs.map Prod.fst).Nodup) :
    ∀ t ∈ minimize_transactions bs, 0 < t.2.2 ∧ t.1 ≠ t.2.1 := by
  intro t ht
  have ht' := ht
  rw [minimize_transactions_def] at ht'
  refine ⟨greedyF_amt_pos _ _ _ (posD bs) (posC bs) t ht', ?_⟩
  intro hcontra
  have h1 := greedyF_from_mem _ _ _ t ht'
  have h2 := greedyF_to_mem _ _ _ t ht'
  rw [hcontra] at h1
  obtain ⟨v, hv, _, hv2⟩ := keysD_entry h1
  obtain ⟨w, hw, _, hw2⟩ := keysC_entry h2
  have heq := key_inj hnd hv hw rfl
  cases heq
  exact hw2 hv2

/-- Witness for C6 at the mapping `{A: 200, B: -100, C: -100}`. -/
theorem minimize_transactions_pos_no_self_witness :
    (([("A", 200), ("B", -100), ("C", -100)] :
        List (String × ℚ)).map Prod.fst).Nodup ∧
    ∀ t ∈ minimize_transactions [("A", 200), ("B", -100), ("C", -100)],
      0 < t.2.2 ∧ t.1 ≠ t.2.1 :=
  ⟨by decide, minimize_transactions_pos_no_self _ (by decide)⟩

/-- The debtor partition contains exactly the entries with balance
`≤ -eps`: the skip test `abs(bal) < 1e-9` keeps `bal = -1e-9` (not
strictly below the threshold), and `bal < 0` then classifies it as a
debtor. -/
theorem debtorsOf_length_eq (bs : List (String × ℚ)) :
    (debtorsOf bs).length = (bs.filter fun b => b.2 ≤ -eps).length := by
  induction bs with
  | nil => simp [debtorsOf]
  | cons b bs ih =>
    simp only [debtorsOf, List.filterMap_cons, List.filter_cons] at ih ⊢
    by_cases h1 : pyAbs b.2 < eps
    · have hcond : ¬b.2 ≤ -eps := by
        unfold pyAbs at h1
        by_cases h2 : b.2 < 0
        · rw [if_pos h2] at h1; intro hc; linarith
        · intro hc; push_neg at h2; linarith [eps_pos]
      rw [if_pos h1]
      simpa [hcond] using ih
    · by_cases h2 : b.2 < 0
      · have hcond : b.2 ≤ -eps := by
          unfold pyAbs at h1
          rw [if_pos h2] at h1
          push_neg at h1
          linarith
        rw [if_neg h1, if_pos h2]
        simpa [hcond] using ih
      · have hcond : ¬b.2 ≤ -eps := by
          push_neg at h2
          intro hc
          linarith [eps_pos]
        rw [if_neg h1, if_neg h2]
        simpa [hcond] using ih

/-- The creditor partition contains exactly the entries with balance
`≥ eps`. -/
theorem creditorsOf_length_eq (bs : List (String × ℚ)) :
    (creditorsOf bs).length = (bs.filter fun b => eps ≤ b.2).length := by
  induction bs with
  | nil => simp [creditorsOf]
  | cons b bs ih =>
    simp only [creditorsOf, List.filterMap_cons, List.filter_cons] at ih ⊢
    by_cases h1 : pyAbs b.2 < eps
    · have hcond : ¬eps ≤ b.2 := by
        unfold pyAbs at h1
        by_cases h2 : b.2 < 0
        · intro hc; linarith [eps_pos]
        · rw [if_neg h2] at h1; intro hc; linarith
      rw [if_pos h1]
      simpa [hcond] using ih
    · by_cases h2 : b.2 < 0
      · have hcond : ¬eps ≤ b.2 := by
          intro hc
          linarith [eps_pos]
        rw [if_neg h1, if_pos h2]
        simpa [hcond] using ih
      · have hcond : eps ≤ b.2 := by
          unfold pyAbs at h1
          rw [if_neg h2] at h1
          push_neg at h1
          exact h1
        rw [if_neg h1, if_neg h2]
        simpa [hcond] using ih

/-- C7 (amended): the number of emitted transfers is at most
`(#debtors + #creditors) - 1` (ℕ subtraction), where debtors are the
entries with balance `≤ -1e-9` and creditors those with balance
`≥ 1e-9` — the code's inclusive partition thresholds.  (With the
strict thresholds `< -1e-9` / `> 1e-9` of the original claim the bound
fails at the boundary, see
`minimize_transactions_count_counterexample`.) -/
theorem minimize_transactions_count_le (bs : List (String × ℚ)) :
    (minimize_transactions bs).length ≤
      (bs.filter fun b => b.2 ≤ -eps).length +
        (bs.filter fun b => eps ≤ b.2).length - 1 := by
  rw [minimize_transactions_def, ← debtorsOf_length_eq,
    ← creditorsOf_length_eq]
  have h := greedyF_length
    ((sortDebtors (debtorsOf bs)).length + (sortCreditors (creditorsOf bs)).length)
    (sortDebtors (debtorsOf bs)) (sortCreditors (creditorsOf bs))
  have hD := (sortDebtors_perm (debtorsOf bs)).length_eq
  have hC := (sortCreditors_perm (creditorsOf bs)).length_eq
  omega

/-- C7 counterexample: at `{A: -1e-9, B: 1e-9}` the code emits one
transfer, but with the claim's strict thresholds (`< -1e-9`,
`> 1e-9`) there are zero debtors and zero creditors, so the claimed
bound `0 + 0 - 1` is violated. -/
theorem minimize_transactions_count_counterexample :
    ¬((minimize_transactions [("A", -eps), ("B", eps)]).length ≤
      (([("A", -eps), ("B", eps)] : List (String × ℚ)).filter
          fun b => b.2 < -eps).length +
        (([("A", -eps), ("B", eps)] : List (String × ℚ)).filter
          fun b => eps < b.2).length - 1) := by decide

/-- C8: `minimize_transactions` is deterministic — in the embedding the
balances dict is its (insertion-ordered) item list, and the function is
a pure function of that list, so two invocations on the same mapping
return the same ordered transfer list. -/
theorem minimize_transactions_deterministic (b1 b2 : List (String × ℚ))
    (h : b1 = b2) :
    minimize_transactions b1 = minimize_transactions b2 := by
  rw [h]

/-- Witness for C8. -/
theorem minimize_transactions_deterministic_witness :
    ([("A", -1), ("B", 1)] : List (String × ℚ)) = [("A", -1), ("B", 1)] ∧
    minimize_transactions [("A", -1), ("B", 1)] =
      minimize_transactions [("A", -1), ("B", 1)] :=
  ⟨rfl, minimize_transactions_deterministic _ _ rfl⟩

/-- State-passing model of one Python call
`minimize_transactions(balances)`: the pair of the returned transfer
list and the contents of the caller's `balances` dict after the call.
The Python body reads `balances.items()` once to build its own working
lists — `debtors.append([person, -bal])` and
`creditors.append([person, bal])` allocate fresh two-element lists
(floats are immutable, so `-bal` and `bal` are fresh values too) — and
the only mutations `debtors[i][1] -= transfer_amt` /
`creditors[j][1] -= transfer_amt` hit those fresh lists.  No statement
assigns to `balances` or to a value aliased with it, so the dict holds
the same entries afterwards. -/
def minimize_transactions_call (balances : List (String × ℚ)) :
    List Transfer × List (String × ℚ) :=
  (minimize_transactions balances, balances)

/-- C9: the call returns the transfer list and leaves the caller's
balances mapping unchanged. -/
theorem minimize_transactions_frame (bs : List (String × ℚ)) :
    (minimize_transactions_call bs).2 = bs ∧
    (minimize_transactions_call bs).1 = minimize_transactions bs :=
  ⟨rfl, rfl⟩

/-! ## The share accumulation loop (the "Calculate settlement" block)

`per_paid` / `per_share` are Python lists of length `N` indexed by
`Int` (Python indexing accepts `-N ≤ i < 0` as `N + i` and raises
`IndexError` otherwise); `Option.none` models the uncaught
`IndexError`.  The split mode comes from a `selectbox` with exactly
the three options `"equal"`, `"custom %"`, `"specific persons"`, so it
is modelled as a closed inductive type. -/

inductive SplitMode : Type
  | equal
  | customPct
  | specificPersons
deriving DecidableEq

/-- An expense record as stored by `add_expense` (the description
string plays no role in settlement and is omitted).  `custom_shares`
is the items list of the `{index: percent}` dict, `included` the list
of participant indices sharing the expense. -/
structure Expense : Type where
  amount : ℚ
  paid_by : Int
  split_mode : SplitMode
  custom_shares : List (Int × ℚ)
  included : List Int
deriving DecidableEq

/-- Resolution of a Python list index: `0 ≤ i < n` resolves to `i`,
`-n ≤ i < 0` resolves to `n + i`, anything else raises `IndexError`
(`none`). -/
def pyIdx (n : Nat) (i : Int) : Option Nat :=
  if 0 ≤ i then (if i < (n : Int) then some i.toNat else none)
  else (if 0 ≤ i + (n : Int) then some (i + (n : Int)).toNat else none)

/-- `l[i] += x` on a Python float list. -/
def listAddAt (l : List ℚ) (i : Int) (x : ℚ) : Option (List ℚ) :=
  match pyIdx l.length i with
  | some k => some (l.set k (l.getD k 0 + x))
  | none => none

/-- `for p in participants: per_share[p] += per`. -/
def addShares : List ℚ → List Int → ℚ → Option (List ℚ)
  | ps, [], _ => some ps
  | ps, i :: rest, per =>
    match listAddAt ps i per with
    | some ps' => addShares ps' rest per
    | none => none

/-- The equal-split body (also the fallback of the `custom %` branch
and the body of the `specific persons` branch):
`k = len(participants) or N; per = amt / k; for p in participants:
per_share[p] += per`.  Note that when `participants` is empty the
loop adds nothing even though `k` falls back to `N`. -/
def equalSplit (N : Nat) (amt : ℚ) (included : List Int) (ps : List ℚ) :
    Option (List ℚ) :=
  let k : Nat := if included.length = 0 then N else included.length
  addShares ps included (amt / (k : ℚ))

/-- `for idx, pct in shares.items(): per_share[idx] += amt * (pct / total_pct)`. -/
def addWeighted : List ℚ → List (Int × ℚ) → ℚ → ℚ → Option (List ℚ)
  | ps, [], _, _ => some ps
  | ps, s :: rest, amt, total =>
    match listAddAt ps s.1 (amt * (s.2 / total)) with
    | some ps' => addWeighted ps' rest amt total
    | none => none

/-- The `custom %` branch: empty mapping falls back to equal split;
`total_pct = sum(shares.values()) or 0.0` equals the plain sum (the
`or 0.0` only replaces `0.0` by `0.0`); `isclose(total_pct, 0.0)` with
`math.isclose`'s defaults (`rel_tol=1e-9`, `abs_tol=0.0`) holds iff
`total_pct == 0.0` exactly, so the zero guard is an exact test and the
all-zero mapping also falls back to equal split. -/
def pctSplit (N : Nat) (amt : ℚ) (included : List Int)
    (shares : List (Int × ℚ)) (ps : List ℚ) : Option (List ℚ) :=
  if shares = [] then equalSplit N amt included ps
  else
    let total_pct := (shares.map Prod.snd).sum
    if total_pct = 0 then equalSplit N amt included ps
    else addWeighted ps shares amt total_pct

/-- One iteration of the expense loop: `per_paid[payer] += amt` then
the split-mode dispatch into `per_share`. -/
def processExpense (N : Nat) (st : List ℚ × List ℚ) (e : Expense) :
    Option (List ℚ × List ℚ) :=
  match listAddAt st.1 e.paid_by e.amount with
  | none => none
  | some pp =>
    match (match e.split_mode with
      | SplitMode.equal => equalSplit N e.amount e.included st.2
      | SplitMode.customPct =>
        pctSplit N e.amount e.included e.custom_shares st.2
      | SplitMode.specificPersons => equalSplit N e.amount e.included st.2) with
    | none => none
    | some ps => some (pp, ps)

def computeSharesAux (N : Nat) :
    List ℚ × List ℚ → List Expense → Option (List ℚ × List ℚ)
  | st, [] => some st
  | st, e :: rest =>
    match processExpense N st e with
    | some st' => computeSharesAux N st' rest
    | none => none

/-- `computeShares`: `per_paid = [0.0]*N; per_share = [0.0]*N;` then
the expense loop.  Returns `(per_paid, per_share)`, or `none` when an
out-of-range index raises `IndexError`. -/
def computeShares (N : Nat) (es : List Expense) : Option (List ℚ × List ℚ) :=
  computeSharesAux N (List.replicate N 0, List.replicate N 0) es

/-- The sidebar tip modes (`"No Tip"`, `"Tip % (applied to total)"`,
`"Tip fixed amount"`). -/
inductive TipMode : Type
  | noTip
  | tipPercent
  | tipFixed
deriving DecidableEq

/-- `tip_amount` as computed after the expense loop. -/
def tipAmountOf (total_base : ℚ) : TipMode → ℚ → ℚ
  | TipMode.noTip, _ => 0
  | TipMode.tipPercent, v => total_base * (v / 100)
  | TipMode.tipFixed, v => v

/-- The surcharge block: `total_base = sum(per_share)`;
`tax_amount = total_base * (tax_percent / 100.0)`; if
`total_base > 0`, each share is increased by its proportion of
`tip_amount + tax_amount`, otherwise the shares are left unchanged. -/
def applySurcharge (share : List ℚ) (m : TipMode) (tip_value tax_percent : ℚ) :
    List ℚ :=
  let total_base := share.sum
  let tip_amount := tipAmountOf total_base m tip_value
  let tax_amount := total_base * (tax_percent / 100)
  if 0 < total_base then
    share.map fun s => s + (s / total_base) * (tip_amount + tax_amount)
  else share

/-- `add_expense` as called by the UI: stores the expense, defaulting
an empty (falsy) `included` list to `list(range(len(people)))` and an
absent `custom_shares` to `{}` (the empty mapping is the empty list
here). -/
def add_expense (people_count : Nat) (amount : ℚ) (paid_by : Int)
    (split_mode : SplitMode) (custom_shares : List (Int × ℚ))
    (included : List Int) : Expense :=
  { amount := amount
    paid_by := paid_by
    split_mode := split_mode
    custom_shares := custom_shares
    included :=
      if included = [] then (List.range people_count).map Int.ofNat
      else included }

example :
    computeShares 3 [⟨300, 0, SplitMode.equal, [], [0, 1, 2]⟩] =
      some ([300, 0, 0], [100, 100, 100]) := by decide

example :
    computeShares 2 [⟨200, 0, SplitMode.customPct, [(0, 30), (1, 70)], [0, 1]⟩] =
      some ([200, 0], [60, 140]) := by decide

example : applySurcharge [100, 100] TipMode.tipPercent 10 5 = [115, 115] := by
  decide

theorem sum_set_add (l : List ℚ) (k : Nat) (x : ℚ) (hk : k < l.length) :
    (l.set k (l.getD k 0 + x)).sum = l.sum + x := by
  induction l generalizing k with
  | nil => simp at hk
  | cons a l ih =>
    cases k with
    | zero => simp; ring
    | succ k =>
      have hk' : k < l.length := by simpa using hk
      simp only [List.set_cons_succ, List.sum_cons, List.getD_cons_succ]
      rw [ih k hk']
      ring

theorem getD_set (l : List ℚ) (k : Nat) (v : ℚ) (m : Nat) :
    (l.set k v).getD m 0 =
      if k = m ∧ m < l.length then v else l.getD m 0 := by
  induction l generalizing k m with
  | nil => simp
  | cons a l ih =>
    cases k with
    | zero =>
      cases m with
      | zero => simp
      | succ m => simp
    | succ k =>
      cases m with
      | zero => simp
      | succ m =>
        simp only [List.set_cons_succ, List.getD_cons_succ, ih k m,
          List.length_cons]
        by_cases h : k = m ∧ m < l.length
        · rw [if_pos h, if_pos ⟨by omega, by omega⟩]
        · rw [if_neg h, if_neg (by omega)]

theorem listAddAt_some {l : List ℚ} {i : Int} {x : ℚ} {l' : List ℚ}
    (h : listAddAt l i x = some l') :
    l'.length = l.length ∧ l'.sum = l.sum + x ∧
      ∃ k, pyIdx l.length i = some k ∧ k < l.length ∧
        (∀ m : Nat, l'.getD m 0 =
          if k = m then l.getD m 0 + x else l.getD m 0) := by
  unfold listAddAt at h
  rcases hk : pyIdx l.length i with _ | k
  · rw [hk] at h; exact absurd h (by simp)
  · rw [hk] at h
    have hl' : l' = l.set k (l.getD k 0 + x) := (Option.some_inj.mp h).symm
    have hklen : k < l.length := by
      unfold pyIdx at hk
      by_cases h0 : 0 ≤ i
      · rw [if_pos h0] at hk
        by_cases h1 : i < (l.length : Int)
        · rw [if_pos h1] at hk
          have := Option.some_inj.mp hk
          omega
        · rw [if_neg h1] at hk; exact absurd hk (by simp)
      · rw [if_neg h0] at hk
        by_cases h1 : 0 ≤ i + (l.length : Int)
        · rw [if_pos h1] at hk
          have := Option.some_inj.mp hk
          omega
        · rw [if_neg h1] at hk; exact absurd hk (by simp)
    subst hl'
    refine ⟨by simp, sum_set_add l k x hklen, k, rfl, hklen, ?_⟩
    intro m
    rw [getD_set]
    by_cases h1 : k = m
    · subst h1
      rw [if_pos ⟨rfl, by omega⟩, if_pos rfl]
    · rw [if_neg (by tauto), if_neg h1]

theorem pyIdx_nonneg {n : Nat} {i : Int} (h0 : 0 ≤ i) (h1 : i < (n : Int)) :
    pyIdx n i = some i.toNat := by
  unfold pyIdx
  rw [if_pos h0, if_pos h1]

theorem listAddAt_valid {l : List ℚ} {i : Int} (x : ℚ) (h0 : 0 ≤ i)
    (h1 : i < (l.length : Int)) :
    listAddAt l i x = some (l.set i.toNat (l.getD i.toNat 0 + x)) := by
  unfold listAddAt
  rw [pyIdx_nonneg h0 h1]

theorem addShares_valid {idxs : List Int} {n : Nat}
    (h : ∀ i ∈ idxs, 0 ≤ i ∧ i < (n : Int)) (per : ℚ) :
    ∀ l : List ℚ, l.length = n →
      ∃ l', addShares l idxs per = some l' ∧ l'.length = n ∧
        l'.sum = l.sum + idxs.length * per := by
  induction idxs with
  | nil => intro l hl; exact ⟨l, rfl, hl, by simp⟩
  | cons i rest ih =>
    intro l hl
    obtain ⟨h0, h1⟩ := h i (List.mem_cons_self i rest)
    have hset := listAddAt_valid per h0 (by rw [hl]; exact h1)
    obtain ⟨hlen, hsum, -⟩ := listAddAt_some hset
    obtain ⟨l', hl', hlen', hsum'⟩ :=
      ih (fun j hj => h j (List.mem_cons_of_mem i hj))
        (l.set i.toNat (l.getD i.toNat 0 + per)) (by rw [hlen, hl])
    refine ⟨l', ?_, hlen', ?_⟩
    · unfold addShares
      rw [hset]
      exact hl'
    · rw [hsum', hsum]
      simp only [List.length_cons]
      push_cast
      ring

theorem equalSplit_valid {N : Nat} {included : List Int} (amt : ℚ)
    (hne : included ≠ [])
    (hidx : ∀ i ∈ included, 0 ≤ i ∧ i < (N : Int)) :
    ∀ ps : List ℚ, ps.length = N →
      ∃ ps', equalSplit N amt included ps = some ps' ∧ ps'.length = N ∧
        ps'.sum = ps.sum + amt := by
  intro ps hps
  have hkne : included.length ≠ 0 := fun h => hne (List.length_eq_zero.mp h)
  obtain ⟨ps', h1, h2, h3⟩ :=
    addShares_valid hidx (amt / (included.length : ℚ)) ps hps
  refine ⟨ps', ?_, h2, ?_⟩
  · unfold equalSplit
    rw [if_neg hkne]
    exact h1
  · rw [h3]
    have : (included.length : ℚ) ≠ 0 := by
      exact_mod_cast hkne
    field_simp

theorem addWeighted_valid {shares : List (Int × ℚ)} {n : Nat}
    (h : ∀ s ∈ shares, 0 ≤ s.1 ∧ s.1 < (n : Int)) (amt total : ℚ) :
    ∀ ps : List ℚ, ps.length = n →
      ∃ ps', addWeighted ps shares amt total = some ps' ∧ ps'.length = n ∧
        ps'.sum = ps.sum + amt * ((shares.map Prod.snd).sum / total) := by
  induction shares with
  | nil => intro ps hps; exact ⟨ps, rfl, hps, by simp⟩
  | cons s rest ih =>
    intro ps hps
    obtain ⟨h0, h1⟩ := h s (List.mem_cons_self s rest)
    have hset := listAddAt_valid (amt * (s.2 / total)) h0 (by rw [hps]; exact h1)
    obtain ⟨hlen, hsum, -⟩ := listAddAt_some hset
    obtain ⟨ps', hps', hlen', hsum'⟩ :=
      ih (fun u hu => h u (List.mem_cons_of_mem s hu))
        (ps.set s.1.toNat (ps.getD s.1.toNat 0 + amt * (s.2 / total)))
        (by rw [hlen, hps])
    refine ⟨ps', ?_, hlen', ?_⟩
    · unfold addWeighted
      rw [hset]
      exact hps'
    · rw [hsum', hsum]
      simp only [List.map_cons, List.sum_cons, add_div, mul_add]
      ring

theorem pctSplit_valid {N : Nat} {included : List Int}
    {shares : List (Int × ℚ)} (amt : ℚ) (hne : included ≠ [])
    (hidx : ∀ i ∈ included, 0 ≤ i ∧ i < (N : Int))
    (hsidx : ∀ s ∈ shares, 0 ≤ s.1 ∧ s.1 < (N : Int)) :
    ∀ ps : List ℚ, ps.length = N →
      ∃ ps', pctSplit N amt included shares ps = some ps' ∧
        ps'.length = N ∧ ps'.sum = ps.sum + amt := by
  intro ps hps
  unfold pctSplit
  by_cases h1 : shares = []
  · rw [if_pos h1]
    exact equalSplit_valid amt hne hidx ps hps
  · rw [if_neg h1]
    by_cases h2 : (shares.map Prod.snd).sum = 0
    · rw [if_pos h2]
      exact equalSplit_valid amt hne hidx ps hps
    · rw [if_neg h2]
      obtain ⟨ps', hps', hlen, hsum⟩ :=
        addWeighted_valid hsidx amt ((shares.map Prod.snd).sum) ps hps
      refine ⟨ps', hps', hlen, ?_⟩
      rw [hsum, div_self h2, mul_one]

/-- The caller contract the spec's `computeShares` assumes: the payer
index and every subset / mapping index lies in `[0, N)`, and the
designated participant list is nonempty. -/
abbrev ValidExpense (N : Nat) (e : Expense) : Prop :=
  (0 ≤ e.paid_by ∧ e.paid_by < (N : Int)) ∧
  e.included ≠ [] ∧
  (∀ i ∈ e.included, 0 ≤ i ∧ i < (N : Int)) ∧
  (∀ s ∈ e.custom_shares, 0 ≤ s.1 ∧ s.1 < (N : Int))

theorem processExpense_valid {N : Nat} {e : Expense} (hV : ValidExpense N e) :
    ∀ st : List ℚ × List ℚ, st.1.length = N → st.2.length = N →
      ∃ pp ps, processExpense N st e = some (pp, ps) ∧
        pp.length = N ∧ ps.length = N ∧ ps.sum = st.2.sum + e.amount := by
  intro st h1 h2
  obtain ⟨⟨hp0, hp1⟩, hne, hidx, hsidx⟩ := hV
  have hset := listAddAt_valid e.amount hp0 (by rw [h1]; exact hp1)
  obtain ⟨hlen, _, -⟩ := listAddAt_some hset
  have hsplit : ∃ ps', (match e.split_mode with
      | SplitMode.equal => equalSplit N e.amount e.included st.2
      | SplitMode.customPct =>
        pctSplit N e.amount e.included e.custom_shares st.2
      | SplitMode.specificPersons =>
        equalSplit N e.amount e.included st.2) = some ps' ∧
      ps'.length = N ∧ ps'.sum = st.2.sum + e.amount := by
    cases e.split_mode with
    | equal => exact equalSplit_valid e.amount hne hidx st.2 h2
    | customPct => exact pctSplit_valid e.amount hne hidx hsidx st.2 h2
    | specificPersons => exact equalSplit_valid e.amount hne hidx st.2 h2
  obtain ⟨ps', hps', hlen', hsum'⟩ := hsplit
  refine ⟨_, ps', ?_, by rw [hlen, h1], hlen', hsum'⟩
  unfold processExpense
  rw [hset, hps']

theorem computeSharesAux_valid {N : Nat} :
    ∀ (es : List Expense), (∀ e ∈ es, ValidExpense N e) →
      ∀ st : List ℚ × List ℚ, st.1.length = N → st.2.length = N →
        ∃ pp ps, computeSharesAux N st es = some (pp, ps) ∧
          pp.length = N ∧ ps.length = N ∧
          ps.sum = st.2.sum + (es.map Expense.amount).sum := by
  intro es
  induction es with
  | nil =>
    intro _ st h1 h2
    exact ⟨st.1, st.2, rfl, h1, h2, by simp⟩
  | cons e rest ih =>
    intro hV st h1 h2
    obtain ⟨pp, ps, hstep, hplen, hslen, hsum⟩ :=
      processExpense_valid (hV e (List.mem_cons_self e rest)) st h1 h2
    obtain ⟨pp', ps', hrest, hplen', hslen', hsum'⟩ :=
      ih (fun u hu => hV u (List.mem_cons_of_mem e hu)) (pp, ps) hplen hslen
    refine ⟨pp', ps', ?_, hplen', hslen', ?_⟩
    · unfold computeSharesAux
      rw [hstep]
      exact hrest
    · rw [hsum']
      have hsum2 : (pp, ps).2.sum = st.2.sum + e.amount := hsum
      rw [hsum2]
      simp only [List.map_cons, List.sum_cons]
      ring

/-- C2 (amended).  With valid indices and a nonempty designated
participant list per expense, `computeShares` returns a result whose
base shares sum exactly to the total expense amount (hence certainly
within `1e-6`) — covering Percentage expenses with empty or all-zero
weight mappings, where the Equal-over-subset fallback applies.  (The
nonemptiness hypothesis is forced: an expense whose `included` list is
empty allocates nothing while its amount still counts, see
`computeShares_conservation_counterexample`; `add_expense` never
stores an empty list when participants exist.) -/
theorem computeShares_conservation (N : Nat) (es : List Expense)
    (hV : ∀ e ∈ es, ValidExpense N e) :
    ∃ pp ps, computeShares N es = some (pp, ps) ∧
      ps.sum = (es.map Expense.amount).sum ∧
      |ps.sum - (es.map Expense.amount).sum| ≤ 1 / 1000000 := by
  obtain ⟨pp, ps, h, _, _, hsum⟩ :=
    computeSharesAux_valid es hV (List.replicate N 0, List.replicate N 0)
      (by simp) (by simp)
  have hz : ps.sum = (es.map Expense.amount).sum := by
    rw [hsum]; simp
  exact ⟨pp, ps, h, hz, by rw [hz, sub_self, abs_zero]; norm_num⟩

/-- C2 counterexample: one expense of `100` with an empty `included`
list (all of whose — zero — indices are valid) over one participant:
the equal-split loop body never runs, so nothing is allocated and the
share total `0` misses the expense total `100` by far more than
`1e-6`. -/
theorem computeShares_conservation_counterexample :
    computeShares 1 [⟨100, 0, SplitMode.equal, [], []⟩] =
      some ([100], [0]) ∧
    ¬(|(0 : ℚ) - 100| ≤ 1 / 1000000) := by
  refine ⟨by decide, ?_⟩
  rw [← pyAbs_eq_abs]
  decide

/-- Witness for C2 (amended): the spec's equal and percentage
scenarios combined. -/
theorem computeShares_conservation_witness :
    (∀ e ∈ [(⟨300, 0, SplitMode.equal, [], [0, 1, 2]⟩ : Expense),
        ⟨200, 1, SplitMode.customPct, [(0, 30), (1, 70)], [0, 1, 2]⟩,
        ⟨50, 2, SplitMode.customPct, [(0, 0), (1, 0)], [0, 1, 2]⟩],
      ValidExpense 3 e) ∧
    ∃ pp ps, computeShares 3
        [⟨300, 0, SplitMode.equal, [], [0, 1, 2]⟩,
          ⟨200, 1, SplitMode.customPct, [(0, 30), (1, 70)], [0, 1, 2]⟩,
          ⟨50, 2, SplitMode.customPct, [(0, 0), (1, 0)], [0, 1, 2]⟩] =
        some (pp, ps) ∧
      ps.sum = ([(⟨300, 0, SplitMode.equal, [], [0, 1, 2]⟩ : Expense),
          ⟨200, 1, SplitMode.customPct, [(0, 30), (1, 70)], [0, 1, 2]⟩,
          ⟨50, 2, SplitMode.customPct, [(0, 0), (1, 0)], [0, 1, 2]⟩].map
            Expense.amount).sum ∧
      |ps.sum - ([(⟨300, 0, SplitMode.equal, [], [0, 1, 2]⟩ : Expense),
          ⟨200, 1, SplitMode.customPct, [(0, 30), (1, 70)], [0, 1, 2]⟩,
          ⟨50, 2, SplitMode.customPct, [(0, 0), (1, 0)], [0, 1, 2]⟩].map
            Expense.amount).sum| ≤ 1 / 1000000 :=
  ⟨by decide, computeShares_conservation 3 _ (by decide)⟩

/-- C3 evidence (code bug): the engine performs no fail-fast
validation and defines no `InvalidReferenceError` anywhere.  A payer
index of `-1` with two participants is outside the participant list,
yet Python list indexing silently resolves it to the *last*
participant: the computation completes normally, crediting `B` with
the payment (`per_paid = [0, 100]`).  A payer index of `2` raises a
bare `IndexError` (modelled `none`) from inside the accumulation loop
rather than a pre-computation `InvalidReferenceError`. -/
theorem invalid_reference_not_rejected :
    computeShares 2 [⟨100, -1, SplitMode.equal, [], [0, 1]⟩] =
      some ([0, 100], [50, 50]) ∧
    computeShares 2 [⟨100, 2, SplitMode.equal, [], [0, 1]⟩] = none := by
  decide

theorem sum_map_surcharge (l : List ℚ) (c : ℚ) :
    (l.map fun s => s + s * c).sum = l.sum + l.sum * c := by
  induction l with
  | nil => simp
  | cons x l ih => simp [ih]; ring

/-- C4: with a positive base total, `applySurcharge` adds each
participant's proportional part of `tip_amount + tax_amount`
(`tip_amount` as per `tipAmountOf`, `tax_amount = total_base *
tax_percent / 100`) and the new shares sum to
`total_base + tip_amount + tax_amount` (exactly, in exact
arithmetic); with a zero base total the shares are returned
unchanged. -/
theorem applySurcharge_spec (share : List ℚ) (m : TipMode) (v tax : ℚ) :
    (0 < share.sum →
      applySurcharge share m v tax =
        (share.map fun s => s + (s / share.sum) *
          (tipAmountOf share.sum m v + share.sum * (tax / 100))) ∧
      (applySurcharge share m v tax).sum =
        share.sum + (tipAmountOf share.sum m v + share.sum * (tax / 100))) ∧
    (share.sum = 0 → applySurcharge share m v tax = share) := by
  constructor
  · intro h
    have hne : share.sum ≠ 0 := ne_of_gt h
    have hmap : applySurcharge share m v tax =
        share.map fun s => s + (s / share.sum) *
          (tipAmountOf share.sum m v + share.sum * (tax / 100)) := by
      unfold applySurcharge
      rw [if_pos h]
    refine ⟨hmap, ?_⟩
    rw [hmap]
    rw [List.map_congr_left (g := fun s => s + s *
        ((tipAmountOf share.sum m v + share.sum * (tax / 100)) / share.sum))
      fun s _ => by rw [div_mul_eq_mul_div, mul_div_assoc]]
    rw [sum_map_surcharge, mul_comm, div_mul_cancel₀ _ hne]
  · intro h
    unfold applySurcharge
    rw [if_neg (by rw [h]; exact lt_irrefl 0)]

/-- Witness for C4 at the spec's surcharge scenario: base shares
`[100, 100]`, 10% tip, 5% tax → tip `20`, tax `10`, final shares
`[115, 115]` summing to `230`. -/
theorem applySurcharge_spec_witness :
    (0 : ℚ) < ([100, 100] : List ℚ).sum ∧
    applySurcharge [100, 100] TipMode.tipPercent 10 5 = [115, 115] ∧
    (applySurcharge [100, 100] TipMode.tipPercent 10 5).sum =
      ([100, 100] : List ℚ).sum +
        (tipAmountOf ([100, 100] : List ℚ).sum TipMode.tipPercent 10 +
          ([100, 100] : List ℚ).sum * (5 / 100)) := by
  have h := (applySurcharge_spec [100, 100] TipMode.tipPercent 10 5).1
    (by decide)
  exact ⟨by decide, by rw [h.1]; decide, h.2⟩

theorem addShares_append (l : List ℚ) (a b : List Int) (per : ℚ) :
    addShares l (a ++ b) per =
      match addShares l a per with
      | some l' => addShares l' b per
      | none => none := by
  induction a generalizing l with
  | nil => simp [addShares]
  | cons i rest ih =>
    simp only [List.cons_append, addShares]
    cases h : listAddAt l i per with
    | none => rfl
    | some l' => exact ih l'

theorem getD_replicate_zero : ∀ (N m : Nat),
    (List.replicate N (0 : ℚ)).getD m 0 = 0 := by
  intro N
  induction N with
  | zero => intro m; simp
  | succ N ih =>
    intro m
    cases m with
    | zero => simp [List.replicate]
    | succ m => simp [List.replicate, ih m]

/-- Adding `per` at each index of `range N` increments the first `N`
entries by exactly `per` each and leaves the rest unchanged. -/
theorem addShares_range_spec (per : ℚ) :
    ∀ (N : Nat) (l : List ℚ), N ≤ l.length →
      ∃ l', addShares l ((List.range N).map Int.ofNat) per = some l' ∧
        l'.length = l.length ∧
        (∀ m : Nat, m < N → l'.getD m 0 = l.getD m 0 + per) ∧
        (∀ m : Nat, N ≤ m → l'.getD m 0 = l.getD m 0) ∧
        l'.sum = l.sum + N * per := by
  intro N
  induction N with
  | zero =>
    intro l _
    exact ⟨l, rfl, rfl, fun m hm => absurd hm (by omega), fun m _ => rfl,
      by simp⟩
  | succ N ih =>
    intro l hl
    obtain ⟨l₁, h1, hlen1, hset1, hkeep1, hsum1⟩ := ih l (by omega)
    rw [List.range_succ, List.map_append, addShares_append, h1]
    have hNlen : (Int.ofNat N) < (l₁.length : Int) := by
      rw [hlen1]
      exact (by omega : ((N : Int) < (l.length : Int)))
    have hadd := listAddAt_valid (l := l₁) (i := Int.ofNat N) per
      ((by omega : ((0 : Int) ≤ (N : Int)))) hNlen
    simp only [Int.toNat_ofNat] at hadd
    simp only [addShares]
    rw [hadd]
    have hNl₁ : N < l₁.length := by omega
    refine ⟨l₁.set N (l₁.getD N 0 + per), rfl, by simp [hlen1], ?_, ?_, ?_⟩
    · intro m hm
      rw [getD_set]
      by_cases hmN : m = N
      · subst hmN
        rw [if_pos ⟨rfl, hNl₁⟩, hkeep1 m (le_refl m)]
      · rw [if_neg (by tauto)]
        exact hset1 m (by omega)
    · intro m hm
      rw [getD_set, if_neg (by omega)]
      exact hkeep1 m (by omega)
    · rw [sum_set_add l₁ N per hNl₁, hsum1]
      push_cast
      ring

theorem computeShares_singleton (N : Nat) (e : Expense) :
    computeShares N [e] =
      processExpense N (List.replicate N 0, List.replicate N 0) e := by
  unfold computeShares computeSharesAux
  cases h : processExpense N (List.replicate N 0, List.replicate N 0) e with
  | none => rfl
  | some st' => rfl

/-- C5: a Subset-split ("specific persons") expense whose designated
subset is empty is stored by `add_expense` with `included` defaulted
to `list(range(N))`, and the engine then allocates `amt / N` to every
participant — the full amount is allocated. -/
theorem subset_empty_falls_back (N : Nat) (hN : 0 < N) (amt : ℚ)
    (payer : Int) (hp0 : 0 ≤ payer) (hp1 : payer < (N : Int))
    (cs : List (Int × ℚ)) :
    ∃ pp ps,
      computeShares N
        [add_expense N amt payer SplitMode.specificPersons cs []] =
        some (pp, ps) ∧
      (∀ m : Nat, m < N → ps.getD m 0 = amt / (N : ℚ)) ∧
      ps.sum = amt := by
  have he : add_expense N amt payer SplitMode.specificPersons cs [] =
      ⟨amt, payer, SplitMode.specificPersons, cs,
        (List.range N).map Int.ofNat⟩ := by
    unfold add_expense
    rw [if_pos rfl]
  rw [computeShares_singleton, he]
  unfold processExpense
  have hset := listAddAt_valid (l := List.replicate N 0) amt hp0
    (by simpa using hp1)
  dsimp only
  rw [hset]
  have hNQ : ((N : ℚ)) ≠ 0 := by
    exact_mod_cast hN.ne'
  have hk : equalSplit N amt ((List.range N).map Int.ofNat)
      (List.replicate N 0) =
      addShares (List.replicate N 0) ((List.range N).map Int.ofNat)
        (amt / (N : ℚ)) := by
    unfold equalSplit
    have hlen : ((List.range N).map Int.ofNat).length = N := by simp
    rw [hlen]
    by_cases h0 : N = 0
    · rw [if_pos h0]
    · rw [if_neg h0]
  rw [hk]
  obtain ⟨l', hl', hlen', hget', _, hsum'⟩ :=
    addShares_range_spec (amt / (N : ℚ)) N (List.replicate N 0) (by simp)
  rw [hl']
  refine ⟨_, l', rfl, ?_, ?_⟩
  · intro m hm
    rw [hget' m hm, getD_replicate_zero, zero_add]
  · rw [hsum']
    simp only [List.sum_replicate]
    field_simp

/-- Witness for C5 at `N = 2`, amount `100`, payer `0`. -/
theorem subset_empty_falls_back_witness :
    0 < 2 ∧ (0 : Int) ≤ 0 ∧ (0 : Int) < (2 : Int) ∧
    ∃ pp ps,
      computeShares 2
        [add_expense 2 100 0 SplitMode.specificPersons [] []] =
        some (pp, ps) ∧
      (∀ m : Nat, m < 2 → ps.getD m 0 = (100 : ℚ) / ((2 : Nat) : ℚ)) ∧
      ps.sum = 100 :=
  ⟨by decide, by decide, by decide,
    subset_empty_falls_back 2 (by decide) 100 0 (by decide) (by decide) []⟩

theorem addWeighted_scale (c : ℚ) (hc0 : c ≠ 0) (amt total : ℚ) :
    ∀ (sh : List (Int × ℚ)) (ps : List ℚ),
      addWeighted ps (sh.map fun s => (s.1, c * s.2)) amt (c * total) =
        addWeighted ps sh amt total := by
  intro sh
  induction sh with
  | nil => intro ps; simp [addWeighted]
  | cons s rest ih =>
    intro ps
    simp only [List.map_cons, addWeighted]
    rw [mul_div_mul_left s.2 total hc0]
    cases h : listAddAt ps s.1 (amt * (s.2 / total)) with
    | none => rfl
    | some ps' => exact ih ps'

/-- C10: Percentage-split allocation is scale-invariant — multiplying
every weight by the same positive constant `c` (the weights summing to
a nonzero total) yields the identical result, because each allocation
is `amt * (pct / total)` and `(c * pct) / (c * total) = pct / total`. -/
theorem pct_scale_invariance (N : Nat) (st : List ℚ × List ℚ) (amt : ℚ)
    (payer : Int) (incl : List Int) (shares : List (Int × ℚ)) (c : ℚ)
    (hc : 0 < c) (ht : (shares.map Prod.snd).sum ≠ 0) :
    processExpense N st
      ⟨amt, payer, SplitMode.customPct,
        shares.map fun s => (s.1, c * s.2), incl⟩ =
    processExpense N st ⟨amt, payer, SplitMode.customPct, shares, incl⟩ := by
  have hc0 : c ≠ 0 := ne_of_gt hc
  have hsc : ((shares.map fun s => (s.1, c * s.2)).map Prod.snd).sum =
      c * (shares.map Prod.snd).sum := by
    rw [List.map_map, ← List.sum_map_mul_left]
    rfl
  have hne : shares ≠ [] := by
    intro hcontra
    rw [hcontra] at ht
    simp at ht
  have hsne : (shares.map fun s => (s.1, c * s.2)) ≠ [] := by
    intro hcontra
    exact hne (List.map_eq_nil_iff.mp hcontra)
  have htc : ((shares.map fun s => (s.1, c * s.2)).map Prod.snd).sum ≠ 0 := by
    rw [hsc]
    exact mul_ne_zero hc0 ht
  have hps : pctSplit N amt incl (shares.map fun s => (s.1, c * s.2)) st.2 =
      pctSplit N amt incl shares st.2 := by
    unfold pctSplit
    rw [if_neg hsne, if_neg hne, if_neg htc, if_neg ht, hsc]
    exact addWeighted_scale c hc0 amt ((shares.map Prod.snd).sum) shares st.2
  unfold processExpense
  dsimp only
  cases listAddAt st.1 payer amt with
  | none => rfl
  | some pp => rw [hps]

/-- Witness for C10: doubling the weights `{0: 30, 1: 70}` yields the
same processed state. -/
theorem pct_scale_invariance_witness :
    (0 : ℚ) < 2 ∧
    (([((0 : Int), (30 : ℚ)), (1, 70)].map Prod.snd).sum ≠ 0) ∧
    processExpense 2 ([0, 0], [0, 0])
      ⟨200, 0, SplitMode.customPct,
        [((0 : Int), (30 : ℚ)), (1, 70)].map fun s => (s.1, 2 * s.2), [0, 1]⟩ =
    processExpense 2 ([0, 0], [0, 0])
      ⟨200, 0, SplitMode.customPct, [((0 : Int), (30 : ℚ)), (1, 70)], [0, 1]⟩ :=
  ⟨by decide, by decide,
    pct_scale_invariance 2 ([0, 0], [0, 0]) 200 0 [0, 1]
      [((0 : Int), (30 : ℚ)), (1, 70)] 2 (by decide) (by decide)⟩

end ExpenseSplitter
